import Mathlib

/-!
# Verification of the text-segmentation and scene-planning pipeline

Shallow embedding of the repository's deterministic chunk/sentence splitters
(`chunkSplitter.ts`) and the hybrid visual planner (`visualPlanner.ts`).
Strings are modelled as `List Char` (`String.data`).  JavaScript numbers are
IEEE binary64 doubles; values on which the code performs arithmetic
(`sceneId`, which undergoes `lastSceneId + 1`) are modelled by `JsNum` —
a finite value (an exact rational) or an infinity, with addition rounded
to nearest-even exactly as binary64 — while values that are only ever
compared, range-checked or copied (`visualChangeConfidence`, whose every
constant 0, 0.2, 0.8, 1.0 is exactly representable) are modelled as `Rat`,
on which those operations agree with the double semantics.
-/

/- Batteries marks the `Rat` arithmetic operations `@[irreducible]`, which
blocks `decide` on concrete plans; restore the default reducibility (this
has no effect on kernel checking). -/
set_option allowUnsafeReducibility true in
attribute [semireducible] Rat.add Rat.mul Rat.inv Rat.sub

/- The binary64 rounding bounds (`2 ^ 1074`, `2 ^ 1024`) reduce by unary
recursion on the exponent; give `decide` enough stack for them. -/
set_option maxRecDepth 100000

namespace Consomnius

/-! ## Character classes -/

/-- The JavaScript whitespace characters (the `\s` class and the
`trim()` set). -/
def jsWsChars : List Char :=
  [' ', '\t', '\n', '\r', '\x0b', '\x0c', ' ', ' ', ' ', ' ', ' ', ' ', ' ', ' ', ' ', ' ', ' ', ' ', ' ', ' ', ' ', ' ', ' ', '　', '﻿']

/-- JavaScript `\s` / `String.prototype.trim` whitespace test. -/
def isJsWs (c : Char) : Bool := jsWsChars.contains c

/-- Sentence terminators recognised by `splitIntoSentences`. -/
def isTerminator (c : Char) : Bool := c = '.' || c = '!' || c = '?'

/-- The two quotation marks recognised by `splitIntoSentences`. -/
def isQuoteChar (c : Char) : Bool := c = '"' || c = '\''

/-- JavaScript `/[A-Z]/` test. -/
def isUpperAZ (c : Char) : Bool := 'A' ≤ c && c ≤ 'Z'

/-- JavaScript `\w` class `[A-Za-z0-9_]`. -/
def isWordChar (c : Char) : Bool :=
  ('a' ≤ c && c ≤ 'z') || ('A' ≤ c && c ≤ 'Z') || ('0' ≤ c && c ≤ '9') || c = '_'

/-! ## Whitespace normalisation (`replace(/\s+/g, ' ')` and `trim()`) -/

/-- Drop leading JS whitespace (the start half of `trim()`). -/
def trimL (l : List Char) : List Char := l.dropWhile isJsWs

/-- Drop trailing JS whitespace (the end half of `trim()`). -/
def trimR (l : List Char) : List Char := (trimL l.reverse).reverse

/-- JavaScript `String.prototype.trim`. -/
def trimChars (l : List Char) : List Char := trimR (trimL l)

/-- JavaScript `replace(/\s+/g, ' ')`: every maximal run of whitespace becomes
a single space. -/
def collapseWs : List Char → List Char
  | [] => []
  | [c] => if isJsWs c then [' '] else [c]
  | c :: d :: rest =>
      if isJsWs c && isJsWs d then collapseWs (d :: rest)
      else (if isJsWs c then ' ' else c) :: collapseWs (d :: rest)

/-! ## Whitespace tokenisation (`split(/\s+/)`) and joining (`join(' ')`) -/

/-- Core whitespace tokeniser: the non-empty maximal runs of non-whitespace
characters, in order.  `cur` is the pending (partial) token. -/
def splitWsGo (cur : List Char) : List Char → List (List Char)
  | [] => if cur = [] then [] else [cur]
  | c :: rest =>
      if isJsWs c then
        if cur = [] then splitWsGo [] rest else cur :: splitWsGo [] rest
      else splitWsGo (cur ++ [c]) rest

/-- The non-empty whitespace-separated tokens of `l`. -/
def splitWs (l : List Char) : List (List Char) := splitWsGo [] l

/-- JavaScript `str.split(/\s+/)`: like `splitWs` but an empty input yields one
empty token, a leading whitespace run yields a leading empty token and a
trailing whitespace run a trailing empty token. -/
def jsSplitWs : List Char → List (List Char)
  | [] => [[]]
  | c :: rest =>
      (if isJsWs c then [([] : List Char)] else []) ++ splitWs (c :: rest) ++
      (if isJsWs ((c :: rest).getLastD c) then [([] : List Char)] else [])

/-- JavaScript `arr.join(' ')`: one single space between consecutive entries
(also around empty entries). -/
def joinSp : List (List Char) → List Char
  | [] => []
  | [s] => s
  | s :: t :: rest => s ++ ' ' :: joinSp (t :: rest)

/-- Space-glue of two character lists, inserting a space only between two
non-empty sides.  Used to state the splitter round-trip invariants. -/
def glue (a b : List Char) : List Char :=
  if a = [] then b else if b = [] then a else a ++ ' ' :: b

/-! ## Sentence splitter (`splitIntoSentences`) -/

/-- The abbreviation list of `splitIntoSentences` (each as a char list). -/
def abbrevList : List (List Char) :=
  ["mr", "mrs", "ms", "dr", "prof", "sr", "jr", "vs", "etc", "inc", "ltd",
   "e.g", "i.e"].map String.data

/-- `current.split(/\s+/).pop()?.toLowerCase() || ''` — the last
whitespace-separated token of the accumulated text, lower-cased.
(JS `toLowerCase` and the abbreviation list are ASCII, so `Char.toLower`
is exact here.) -/
def lastWordLower (current : List Char) : List Char :=
  ((jsSplitWs current).getLastD []).map Char.toLower

/-- The `isAbbreviation` test of `splitIntoSentences`:
some listed abbreviation is a prefix of the last word. -/
def isAbbrevLastWord (current : List Char) : Bool :=
  abbrevList.any (fun a => a.isPrefixOf (lastWordLower current))

/-- The `isEndOfSentence` test of `splitIntoSentences`, given the characters
following the terminator (`[]` means the terminator is the last character;
`nextChar`/`nextNextChar` default to `''`, on which both the uppercase test and
equality with `'"'` are false). -/
def sentenceEndCheck : List Char → Bool
  | [] => true
  | n :: rest2 =>
      (n = ' ' && (match rest2 with | [] => false | m :: _ => isUpperAZ m)) ||
      n = '"' || n = '\'' ||
      (n = ' ' && (match rest2 with | [] => false | m :: _ => m = '"'))

/-- The character scan of `splitIntoSentences`: `acc` is the mutable `current`,
the second argument the unread rest of the text. -/
def sentGo (acc : List Char) : List Char → List (List Char)
  | [] => if trimChars acc = [] then [] else [trimChars acc]
  | c :: rest =>
      if isTerminator c && sentenceEndCheck rest &&
          !isAbbrevLastWord (acc ++ [c]) then
        if trimChars (acc ++ [c]) = [] then sentGo [] rest
        else trimChars (acc ++ [c]) :: sentGo [] rest
      else sentGo (acc ++ [c]) rest

/-- `splitIntoSentences` on character lists: run the scan; if no sentence was
produced, fall back to the whole text. -/
def splitIntoSentencesL (text : List Char) : List (List Char) :=
  let sentences := sentGo [] text
  if sentences = [] then [text] else sentences

/-- `splitIntoSentences` (string level). -/
def splitIntoSentences (text : String) : List String :=
  (splitIntoSentencesL text.data).map String.mk

/-! ## Chunk splitter (`splitSentenceIntoChunks`, `splitIntoChunks`) -/

def MIN_CHUNK_WORDS : Nat := 5
def MAX_CHUNK_WORDS : Nat := 9
def IDEAL_CHUNK_WORDS : Nat := 7

/-- `PAUSE_PUNCTUATION` of `chunkSplitter.ts`. -/
def pausePunctuation : List Char := [',', ';', ':', '—', '–', '.', '!', '?']

/-- `word.endsWith(p)` for single-character `p`: the last character match. -/
def hasPausePunct (w : List Char) : Bool :=
  pausePunctuation.any (fun p => match w.getLast? with
    | some c => c = p
    | none => false)

/-- `CHUNK_BOUNDARY_WORDS` of `chunkSplitter.ts`. -/
def chunkBoundaryWords : List (List Char) :=
  ["and", "or", "but", "so", "yet", "for", "nor",
   "because", "although", "while", "when", "if", "since", "until", "unless",
   "after", "before", "once", "whereas", "wherever", "whether",
   "however", "therefore", "moreover", "furthermore", "nevertheless",
   "meanwhile", "otherwise", "consequently", "instead", "thus",
   "which", "that", "who", "whom", "whose", "where"].map String.data

/-- `IDEA_STARTERS` of `chunkSplitter.ts`. -/
def ideaStarters : List (List Char) :=
  ["the", "a", "an", "this", "that", "these", "those",
   "he", "she", "it", "they", "we", "i", "you",
   "there", "here", "now", "then"].map String.data

/-- `word.toLowerCase().replace(/[^\w]/g, '')`. -/
def cleanWord (w : List Char) : List Char :=
  (w.map Char.toLower).filter isWordChar

/-- The `shouldEndChunk` decision of the loop body: `cur2` is the candidate
chunk including the current word `w`, `rest` the remaining words
(`nextWord = rest.headD []` corresponds to the `''` default). -/
def chunkShouldEnd (cur2 : List (List Char)) (w : List Char)
    (rest : List (List Char)) : Bool :=
  (rest = [] : Bool) ||
  (MAX_CHUNK_WORDS ≤ cur2.length : Bool) ||
  ((IDEAL_CHUNK_WORDS ≤ cur2.length : Bool) && hasPausePunct w) ||
  ((MIN_CHUNK_WORDS ≤ cur2.length : Bool) && hasPausePunct w &&
    chunkBoundaryWords.contains (cleanWord (rest.headD []))) ||
  ((MIN_CHUNK_WORDS ≤ cur2.length : Bool) && hasPausePunct w &&
    ideaStarters.contains (cleanWord (rest.headD [])))

/-- The chunking loop of `splitSentenceIntoChunks` plus its trailing-fragment
handling: `chunks` is the output accumulator, `cur` the words of the current
candidate chunk, the last argument the remaining words. -/
def chunkGoAcc (chunks : List (List Char)) (cur : List (List Char)) :
    List (List Char) → List (List Char)
  | [] =>
      -- after the loop: merge or push any leftover words
      if cur = [] then chunks
      else if trimChars (joinSp cur) = [] then chunks
      else if chunks ≠ [] ∧ cur.length < MIN_CHUNK_WORDS then
        chunks.dropLast ++ [chunks.getLastD [] ++ ' ' :: trimChars (joinSp cur)]
      else chunks ++ [trimChars (joinSp cur)]
  | w :: rest =>
      if chunkShouldEnd (cur ++ [w]) w rest then
        if trimChars (joinSp (cur ++ [w])) = [] then chunkGoAcc chunks [] rest
        else chunkGoAcc (chunks ++ [trimChars (joinSp (cur ++ [w]))]) [] rest
      else chunkGoAcc chunks (cur ++ [w]) rest

/-- `splitSentenceIntoChunks` on character lists: a sentence of at most 9 words
is a single chunk, otherwise the word-scan loop runs. -/
def splitSentenceIntoChunksL (sentence : List Char) : List (List Char) :=
  let words := jsSplitWs (trimChars sentence)
  if words.length ≤ MAX_CHUNK_WORDS then [trimChars sentence]
  else chunkGoAcc [] [] words

/-- `splitIntoChunks` on character lists: guard empty input, normalise
whitespace, split into sentences, chunk each sentence, drop blank chunks. -/
def splitIntoChunksL (paragraph : List Char) : List (List Char) :=
  if trimChars paragraph = [] then []
  else
    let text := trimChars (collapseWs paragraph)
    let sentences := splitIntoSentencesL text
    ((sentences.map splitSentenceIntoChunksL).flatten).filter
      (fun c => trimChars c ≠ [])

/-- `splitIntoChunks` (string level). -/
def splitIntoChunks (paragraph : String) : List String :=
  (splitIntoChunksL paragraph.data).map String.mk

/-- `validateChunks` on character lists:
`chunks.join(' ').replace(/\s+/g,' ').trim() === original.replace(/\s+/g,' ').trim()`. -/
def validateChunksL (original : List Char) (chunks : List (List Char)) : Bool :=
  trimChars (collapseWs (joinSp chunks)) = trimChars (collapseWs original)

/-- `validateChunks` (string level). -/
def validateChunks (original : String) (chunks : List String) : Bool :=
  validateChunksL original.data (chunks.map String.data)

/-- `paragraph.replace(/\s+/g, ' ').trim()` (string level). -/
def normalizeText (p : String) : String := String.mk (trimChars (collapseWs p.data))

/-- JavaScript `trim()` (string level). -/
def jsTrim (s : String) : String := String.mk (trimChars s.data)

/-! ## Visual planner (`visualPlanner.ts`)

`planVisualsForParagraph` is `async`: its only effect is one oracle (Gemini)
call under a 30-second timeout, wrapped in `try/catch`, followed by a pure
construction loop.  The oracle interaction is modelled by an explicit
`OracleOutcome` argument: `failure` covers a timeout, a thrown error and an
unparseable (non-JSON) response — all of which the `catch` turns into
`geminiPlans = null` — `nonArray` a parsed non-array JSON value, and `array`
a parsed JSON array (of arbitrary length; elements that are not objects are
`none`).  A JS object field that is absent or of the wrong type is modelled as
`none`, since every `typeof`/`includes` validation in the source sends both to
the same default. -/

/-! ### JavaScript numbers for `sceneId`

`sceneId` is the one numeric the loop does arithmetic on (`lastSceneId + 1`),
so it is modelled as an IEEE binary64 value: a finite exact rational or an
infinity.  `NaN` is unreachable — every sceneId is either a program constant
(`0`, `1`), a `JSON.parse` result (`typeof`-checked; `JSON.parse` yields
finite doubles or, by overflow such as `1e400`, infinities, never `NaN`), or
`x + 1` of such a value.  `+0` and `-0` are identified: the source only ever
applies `===`, `Set` membership and `+ 1` to sceneIds, and all three agree on
the two zeros.  Finite values are carried as exact rationals; `jsAdd1`
re-rounds after adding, so `2^53 + 1` saturates back to `2^53` exactly as in
binary64. -/

/-- An IEEE binary64 value as observable through `===`, `<`, `Set`
membership and `+ 1`: a finite exact value or an infinity (`NaN`
unreachable, `±0` identified — see the section comment). -/
inductive JsNum where
  | fin (q : Rat)
  | posInf
  | negInf
deriving DecidableEq, Repr

/-- `2^e` as an exact rational, for an integer exponent. -/
def pow2 (e : Int) : Rat :=
  if 0 ≤ e then mkRat ((2 ^ e.toNat : Nat) : Int) 1
  else mkRat 1 (2 ^ (-e).toNat)

/-- Fuel-driven `⌊log₂⌋` on positive naturals (structural recursion, so a
concrete value reduces inside `decide`; agrees with `Nat.log2` whenever
`n ≤ fuel`). -/
def log2Go : Nat → Nat → Nat
  | 0, _ => 0
  | fuel + 1, n => if n < 2 then 0 else log2Go fuel (n / 2) + 1

/-- `⌊log₂ n⌋` for `n ≥ 1`. -/
def natLog2 (n : Nat) : Nat := log2Go n n

/-- `⌊log₂ a⌋` for a positive rational: the binade of `a`. -/
def floorLog2 (a : Rat) : Int :=
  let e0 : Int := (natLog2 a.num.natAbs : Int) - (natLog2 a.den : Int) - 1
  if pow2 (e0 + 1) ≤ a then e0 + 1 else e0

/-- The integer nearest to a non-negative rational, ties to even
(the IEEE rounding of a scaled significand). -/
def roundHalfEven (q : Rat) : Int :=
  let f : Int := q.num / (q.den : Int)
  let r : Int := q.num % (q.den : Int)
  if 2 * r < (q.den : Int) then f
  else if (q.den : Int) < 2 * r then f + 1
  else if f % 2 = 0 then f else f + 1

/-- Round a positive rational to the nearest binary64 value
(round-to-nearest, ties-to-even): 53-bit significand in the value's binade,
gradual underflow to multiples of `2^-1074` below the normal range, and
overflow to `+Infinity` at `2^1024`. -/
def roundPosToDouble (a : Rat) : JsNum :=
  let e : Int := floorLog2 a
  if e < -1022 then
    JsNum.fin (mkRat (roundHalfEven (a * pow2 1074)) 1 * pow2 (-1074))
  else
    let m : Int := roundHalfEven (a * pow2 (52 - e))
    let r : Rat := mkRat m 1 * pow2 (e - 52)
    if pow2 1024 ≤ r then JsNum.posInf else JsNum.fin r

/-- Round any rational to the nearest binary64 value (negative values by
symmetry of round-to-nearest-even). -/
def roundRatToDouble (q : Rat) : JsNum :=
  if q = 0 then JsNum.fin 0
  else if 0 < q then roundPosToDouble q
  else
    match roundPosToDouble (-q) with
    | JsNum.fin r => JsNum.fin (-r)
    | _ => JsNum.negInf

/-- JS `x + 1` on a number: binary64 addition (`±Infinity + 1 = ±Infinity`;
for a finite `x`, the exact sum re-rounded, so e.g. `2^53 + 1 = 2^53`). -/
def jsAdd1 : JsNum → JsNum
  | JsNum.fin q => roundRatToDouble (q + 1)
  | JsNum.posInf => JsNum.posInf
  | JsNum.negInf => JsNum.negInf

/-- JS `<` on numbers (neither operand `NaN`). -/
def jsLt : JsNum → JsNum → Bool
  | JsNum.fin a, JsNum.fin b => decide (a < b)
  | JsNum.fin _, JsNum.posInf => true
  | JsNum.negInf, JsNum.fin _ => true
  | JsNum.negInf, JsNum.posInf => true
  | _, _ => false

/-- `VALID_SEMANTIC_LABELS` of `visualPlanner.ts`. -/
def VALID_SEMANTIC_LABELS : List String :=
  ["counting", "explaining", "arguing", "questioning", "emphasizing",
   "comparing", "listing", "storytelling", "describing", "concluding",
   "transitioning", "emotional_positive", "emotional_negative", "neutral",
   "dramatic", "humorous", "warning", "instructing"]

/-- One element of the oracle's JSON array, field-by-field:
`none` means the field is absent or fails the source's type test. -/
structure RawPlan where
  sceneId : Option JsNum := none
  isNewScene : Option Bool := none
  semanticLabel : Option String := none
  visualChangeConfidence : Option Rat := none
  displayStyle : Option String := none
  visualType : Option String := none
  visualQueries : Option (List (Option String)) := none
  pace : Option String := none
deriving DecidableEq, Repr

/-- The observable outcome of the oracle call (see the section comment). -/
inductive OracleOutcome where
  | failure
  | nonArray
  | array (plans : List (Option RawPlan))
deriving DecidableEq, Repr

/-- The `geminiPlans` variable after the `try/catch` and the array check:
`null` unless a JSON array was parsed (a length mismatch only logs a warning
and keeps the array). -/
def geminiPlansOf : OracleOutcome → Option (List (Option RawPlan))
  | .failure => none
  | .nonArray => none
  | .array l => some l

/-- `geminiPlans?.[i]` followed by the `geminiPlan && typeof geminiPlan ===
'object'` test: `none` when the oracle failed, the index is out of range, or
the element is not an object. -/
def geminiPlanAt (gemini : Option (List (Option RawPlan))) (i : Nat) :
    Option RawPlan :=
  match gemini with
  | none => none
  | some raw => raw.getD i none

/-- The output record of the planner (`ChunkPlan` of `types.ts`; the string
unions are kept as strings, exactly as validated by the source). -/
structure ChunkPlan where
  index : Nat
  chunkText : String
  sceneId : JsNum
  isNewScene : Bool
  semanticLabel : String
  visualChangeConfidence : Rat
  displayStyle : String
  visualType : Option String
  visualQueries : List String
  pace : String
deriving DecidableEq, Repr

/-- The per-chunk field values before the consistency repairs: the eight
`let` bindings of the loop body (either the Gemini-validation branch or the
smart-defaults branch). -/
structure Resolved where
  sceneId : JsNum
  isNewScene : Bool
  semanticLabel : String
  visualChangeConfidence : Rat
  displayStyle : String
  visualType : Option String
  visualQueries : List String
  pace : String
deriving DecidableEq, Repr

/-- Lines 217–252 of `visualPlanner.ts`: validate the oracle's values or take
the smart defaults. -/
def resolveFields (gp : Option RawPlan) (i : Nat) (lastSceneId : JsNum)
    (seenSceneIds : List JsNum) : Resolved :=
  match gp with
  | some g =>
      let sceneId : JsNum :=
        match g.sceneId with
        | some n => n
        | none => if i = 0 then JsNum.fin 1 else lastSceneId
      let isNewScene : Bool :=
        match g.isNewScene with
        | some b => b
        | none => !(seenSceneIds.contains sceneId)
      let semanticLabel : String :=
        match g.semanticLabel with
        | some l => if VALID_SEMANTIC_LABELS.contains l then l else "neutral"
        | none => "neutral"
      let visualChangeConfidence : Rat :=
        match g.visualChangeConfidence with
        | some v =>
            if 0 ≤ v ∧ v ≤ 1 then v
            else if isNewScene then (8 : Rat) / 10 else (2 : Rat) / 10
        | none => if isNewScene then (8 : Rat) / 10 else (2 : Rat) / 10
      let displayStyle : String :=
        if g.displayStyle = some "text_only" then "text_only" else "visual"
      let visualType : Option String :=
        if displayStyle = "visual" then
          if g.visualType = some "image" then some "image" else some "gif"
        else none
      let visualQueries : List String :=
        match g.visualQueries with
        | some qs => (qs.filterMap id).take 3
        | none => []
      let pace : String :=
        match g.pace with
        | some p => if (["slow", "normal", "fast"] : List String).contains p
                    then p else "normal"
        | none => "normal"
      { sceneId := sceneId, isNewScene := isNewScene,
        semanticLabel := semanticLabel,
        visualChangeConfidence := visualChangeConfidence,
        displayStyle := displayStyle, visualType := visualType,
        visualQueries := visualQueries, pace := pace }
  | none =>
      { sceneId := if i = 0 then JsNum.fin 1 else lastSceneId,
        isNewScene := (i = 0 : Bool),
        semanticLabel := "neutral",
        visualChangeConfidence := if i = 0 then 1 else (2 : Rat) / 10,
        displayStyle := "visual", visualType := some "gif",
        visualQueries := [], pace := "normal" }

/-- `chunkText.split(/\s+/).slice(0, 5).join(' ')` — the synthesized default
visual query. -/
def firstFiveWords (chunkText : String) : String :=
  String.mk (joinSp ((jsSplitWs chunkText.data).take 5))

/-- Lines 203–294 of `visualPlanner.ts` for one chunk: resolve the fields,
force chunk 0 to a new scene with sceneId 1, repair the
`isNewScene`/`sceneId` inconsistencies, synthesize or clear the visual
queries, and build the `ChunkPlan`. -/
def mkPlan (gp : Option RawPlan) (i : Nat) (chunkText : String)
    (lastSceneId : JsNum) (seenSceneIds : List JsNum) : ChunkPlan :=
  let r := resolveFields gp i lastSceneId seenSceneIds
  -- First chunk is always a new scene
  let isNewScene : Bool := if i = 0 then true else r.isNewScene
  let sceneId0 : JsNum := if i = 0 then JsNum.fin 1 else r.sceneId
  -- Ensure isNewScene and sceneId are consistent
  let sceneId1 : JsNum :=
    if isNewScene = true ∧ sceneId0 = lastSceneId ∧ 0 < i then
      jsAdd1 lastSceneId
    else sceneId0
  let sceneId : JsNum :=
    if isNewScene = false ∧ sceneId1 ≠ lastSceneId then lastSceneId
    else sceneId1
  -- New scenes need visual queries
  let vq0 : List String :=
    if isNewScene = true ∧ r.displayStyle = "visual" ∧ r.visualQueries = []
    then [firstFiveWords chunkText] else r.visualQueries
  -- Continuing scenes shouldn't have queries
  let visualQueries : List String := if isNewScene = false then [] else vq0
  { index := i, chunkText := chunkText, sceneId := sceneId,
    isNewScene := isNewScene, semanticLabel := r.semanticLabel,
    visualChangeConfidence := r.visualChangeConfidence,
    displayStyle := r.displayStyle, visualType := r.visualType,
    visualQueries := visualQueries, pace := r.pace }

/-- The `for` loop of STEP 3: `i` is the loop index, `lastSceneId` and
`seenSceneIds` the threaded mutable state. -/
def buildGo (gemini : Option (List (Option RawPlan))) (i : Nat)
    (lastSceneId : JsNum) (seenSceneIds : List JsNum) :
    List String → List ChunkPlan
  | [] => []
  | chunkText :: rest =>
      let plan := mkPlan (geminiPlanAt gemini i) i chunkText lastSceneId
        seenSceneIds
      plan :: buildGo gemini (i + 1) plan.sceneId (plan.sceneId :: seenSceneIds)
        rest

/-- STEP 3 of `planVisualsForParagraph`: build the `ChunkPlan` array
(`lastSceneId` starts at 0, `seenSceneIds` empty). -/
def buildChunkPlans (gemini : Option (List (Option RawPlan)))
    (chunks : List String) : List ChunkPlan :=
  buildGo gemini 0 (JsNum.fin 0) [] chunks

/-- `planVisualsForParagraph`: the two fatal input guards, whitespace
normalisation, chunking, and the plan-building loop.  The oracle call and its
`try/catch` are the `OracleOutcome` argument (see above); `console.warn` calls
are effect-free. -/
def planVisualsForParagraph (paragraph : String) (oracle : OracleOutcome) :
    Except String (List ChunkPlan) :=
  if jsTrim paragraph = "" then Except.error "Paragraph cannot be empty"
  else
    let normalizedParagraph := normalizeText paragraph
    let chunks := splitIntoChunks normalizedParagraph
    if chunks = [] then Except.error "No chunks produced from paragraph"
    else Except.ok (buildChunkPlans (geminiPlansOf oracle) chunks)

/-- The plan list of a successful call (`[]` on the fatal-error branches);
used to state closed concrete facts about `planVisualsForParagraph`. -/
def plansOrEmpty (paragraph : String) (oracle : OracleOutcome) :
    List ChunkPlan :=
  match planVisualsForParagraph paragraph oracle with
  | Except.ok plans => plans
  | Except.error _ => []

/-- Placeholder plan for `List.getD`-style indexing in theorem statements. -/
def dummyPlan : ChunkPlan :=
  { index := 0, chunkText := "", sceneId := JsNum.fin 0, isNewScene := false,
    semanticLabel := "", visualChangeConfidence := 0, displayStyle := "",
    visualType := none, visualQueries := [], pace := "" }

/-! ## Normal-form predicates

Executable predicates describing the output of `replace(/\s+/g,' ').trim()`:
all whitespace is a plain space, no two adjacent spaces, no leading or
trailing whitespace.  `adjPairsOK` checks a property of every pair of
adjacent characters. -/

/-- Every pair of adjacent characters satisfies `p`. -/
def adjPairsOK (p : Char → Char → Bool) : List Char → Bool
  | [] => true
  | [_] => true
  | a :: b :: rest => p a b && adjPairsOK p (b :: rest)

/-- Every whitespace character is a plain space. -/
def wsCanonB (l : List Char) : Bool := l.all (fun c => !isJsWs c || c = ' ')

/-- No two adjacent spaces. -/
def noDblSpace (l : List Char) : Bool :=
  adjPairsOK (fun a b => !(a = ' ' && b = ' ')) l

/-- No sentence terminator immediately followed by a quotation mark (the
side condition of the amended round-trip claim C1). -/
def noTermThenQuote (l : List Char) : Bool :=
  adjPairsOK (fun a b => !(isTerminator a && isQuoteChar b)) l

/-- The head character (if any) is not whitespace. -/
def headNonWs (l : List Char) : Bool :=
  match l.head? with
  | none => true
  | some c => !isJsWs c

/-- The last character (if any) is not whitespace. -/
def lastNonWs (l : List Char) : Bool :=
  match l.getLast? with
  | none => true
  | some c => !isJsWs c

/-- The shape of a whitespace-normalised string. -/
def fullNorm (l : List Char) : Bool :=
  wsCanonB l && noDblSpace l && headNonWs l && lastNonWs l

/-! ## Basic facts about trimming and joining -/

theorem isTerminator_not_ws {c : Char} (h : isTerminator c = true) :
    isJsWs c = false := by
  simp only [isTerminator, Bool.or_eq_true, decide_eq_true_eq] at h
  rcases h with (h | h) | h <;> subst h <;> decide

theorem trimL_cons_of_not_ws {c : Char} (l : List Char) (h : isJsWs c = false) :
    trimL (c :: l) = c :: l := by
  simp [trimL, List.dropWhile_cons, h]

theorem trimL_eq_self (l : List Char)
    (h : ∀ x, l.head? = some x → isJsWs x = false) : trimL l = l := by
  cases l with
  | nil => rfl
  | cons c t => exact trimL_cons_of_not_ws t (h c rfl)

theorem head?_trimL {l : List Char} {x : Char}
    (h : (trimL l).head? = some x) : isJsWs x = false := by
  induction l with
  | nil => exact absurd h (by simp [trimL])
  | cons c t ih =>
      by_cases hc : isJsWs c
      · simp only [trimL, List.dropWhile_cons, hc] at h
        exact ih h
      · rw [trimL, List.dropWhile_cons, if_neg hc] at h
        simp only [List.head?_cons, Option.some_inj] at h
        subst h
        simpa using hc

theorem trimL_eq_nil (l : List Char) (h : ∀ x ∈ l, isJsWs x = true) :
    trimL l = [] := by
  induction l with
  | nil => rfl
  | cons c t ih =>
      simp only [trimL, List.dropWhile_cons, h c (by simp)]
      exact ih fun x hx => h x (by simp [hx])

theorem mem_trimL {l : List Char} {x : Char} (hx : x ∈ l)
    (hws : isJsWs x = false) : x ∈ trimL l := by
  induction l with
  | nil => cases hx
  | cons c t ih =>
      by_cases hc : isJsWs c
      · simp only [trimL, List.dropWhile_cons, hc, if_true]
        rcases List.mem_cons.mp hx with h | h
        · subst h; rw [hws] at hc; cases hc
        · exact ih h
      · simpa [trimL, List.dropWhile_cons, hc] using hx

theorem mem_trimR {l : List Char} {x : Char} (hx : x ∈ l)
    (hws : isJsWs x = false) : x ∈ trimR l := by
  unfold trimR
  rw [List.mem_reverse]
  exact mem_trimL (List.mem_reverse.mpr hx) hws

theorem mem_trimChars {l : List Char} {x : Char} (hx : x ∈ l)
    (hws : isJsWs x = false) : x ∈ trimChars l :=
  mem_trimR (mem_trimL hx hws) hws

theorem trimChars_ne_nil {l : List Char} {x : Char} (hx : x ∈ l)
    (hws : isJsWs x = false) : trimChars l ≠ [] := by
  intro h
  have hmem := mem_trimChars hx hws
  rw [h] at hmem
  cases hmem

theorem trimR_eq_self (l : List Char)
    (h : ∀ x, l.getLast? = some x → isJsWs x = false) : trimR l = l := by
  unfold trimR
  rw [trimL_eq_self]
  · exact l.reverse_reverse
  · intro x hx
    exact h x (by rwa [List.head?_reverse] at hx)

theorem getLast?_trimR {l : List Char} {x : Char}
    (h : (trimR l).getLast? = some x) : isJsWs x = false := by
  unfold trimR at h
  rw [List.getLast?_reverse] at h
  exact head?_trimL h

theorem getLast?_dropWhile {p : Char → Bool} {m : List Char} {x : Char}
    (h : (m.dropWhile p).getLast? = some x) : m.getLast? = some x := by
  obtain ⟨t, ht⟩ := List.dropWhile_suffix (l := m) p
  have hne : m.dropWhile p ≠ [] := by
    intro hnil
    rw [hnil] at h
    cases h
  rw [← ht, List.getLast?_append_of_ne_nil _ hne]
  exact h

theorem head?_trimChars {l : List Char} {x : Char}
    (h : (trimChars l).head? = some x) : isJsWs x = false := by
  unfold trimChars trimR at h
  rw [List.head?_reverse] at h
  have h2 : ((trimL l).reverse).getLast? = some x := getLast?_dropWhile h
  rw [List.getLast?_reverse] at h2
  exact head?_trimL h2

theorem getLast?_trimChars {l : List Char} {x : Char}
    (h : (trimChars l).getLast? = some x) : isJsWs x = false :=
  getLast?_trimR h

theorem getLast?_trimL {l : List Char} (h : trimL l ≠ []) :
    (trimL l).getLast? = l.getLast? := by
  obtain ⟨t, ht⟩ := List.dropWhile_suffix (l := l) isJsWs
  calc (trimL l).getLast? = (t ++ trimL l).getLast? :=
        (List.getLast?_append_of_ne_nil _ h).symm
    _ = l.getLast? := by rw [show t ++ trimL l = l from ht]

theorem trimChars_eq_trimL (l : List Char)
    (h : ∀ x, l.getLast? = some x → isJsWs x = false) :
    trimChars l = trimL l := by
  unfold trimChars
  by_cases hnil : trimL l = []
  · rw [hnil]; rfl
  · exact trimR_eq_self _ fun x hx => h x (by rwa [getLast?_trimL hnil] at hx)

theorem trimChars_idem (l : List Char) :
    trimChars (trimChars l) = trimChars l := by
  unfold trimChars
  rw [trimL_eq_self (trimR (trimL l)) (fun x hx => head?_trimChars hx),
    trimR_eq_self _ (fun x hx => getLast?_trimR hx)]

theorem trimChars_eq_self (l : List Char)
    (hh : ∀ x, l.head? = some x → isJsWs x = false)
    (hl : ∀ x, l.getLast? = some x → isJsWs x = false) : trimChars l = l := by
  unfold trimChars
  rw [trimL_eq_self l hh, trimR_eq_self l hl]

theorem trimL_eq_nil_iff (l : List Char) :
    trimL l = [] ↔ ∀ x ∈ l, isJsWs x = true := by
  constructor
  · intro h x hx
    by_contra hws
    have := mem_trimL hx (by simpa using hws)
    rw [h] at this
    cases this
  · exact trimL_eq_nil l

theorem trimL_append_ws {l1 l2 : List Char} (h : ∀ x ∈ l1, isJsWs x = true) :
    trimL (l1 ++ l2) = trimL l2 := by
  induction l1 with
  | nil => rfl
  | cons c t ih =>
      have hc := h c (by simp)
      simp only [List.cons_append, trimL, List.dropWhile_cons, hc, if_true]
      exact ih fun x hx => h x (by simp [hx])

theorem trimL_append_of_ne_nil {l1 : List Char} (l2 : List Char)
    (h : trimL l1 ≠ []) : trimL (l1 ++ l2) = trimL l1 ++ l2 := by
  induction l1 with
  | nil => exact absurd rfl h
  | cons c t ih =>
      by_cases hc : isJsWs c
      · simp only [trimL, List.dropWhile_cons, hc, if_true] at h ⊢
        simp only [List.cons_append, List.dropWhile_cons, hc, if_true]
        exact ih h
      · show List.dropWhile isJsWs (c :: (t ++ l2)) =
          List.dropWhile isJsWs (c :: t) ++ l2
        rw [List.dropWhile_cons, List.dropWhile_cons, if_neg hc, if_neg hc,
          List.cons_append]

theorem trimChars_all_ws {l : List Char} (h : ∀ x ∈ l, isJsWs x = true) :
    trimChars l = [] := by
  unfold trimChars
  rw [trimL_eq_nil l h]
  rfl

/-! ## Facts about `joinSp` and `glue` -/

theorem joinSp_cons (t : List Char) {rest : List (List Char)}
    (h : rest ≠ []) : joinSp (t :: rest) = t ++ ' ' :: joinSp rest := by
  cases rest with
  | nil => exact absurd rfl h
  | cons u r => rfl

theorem joinSp_ne_nil {L : List (List Char)} (hL : L ≠ [])
    (h : ∀ t ∈ L, t ≠ []) : joinSp L ≠ [] := by
  cases L with
  | nil => exact absurd rfl hL
  | cons t rest =>
      cases rest with
      | nil =>
          simpa [joinSp] using h t (by simp)
      | cons u r =>
          rw [joinSp_cons t (by simp)]
          intro hx
          have : t = [] := by
            cases t with
            | nil => rfl
            | cons a b => simp at hx
          exact h t (by simp) this

theorem joinSp_append {A B : List (List Char)} (hA : A ≠ []) (hB : B ≠ []) :
    joinSp (A ++ B) = joinSp A ++ ' ' :: joinSp B := by
  induction A with
  | nil => exact absurd rfl hA
  | cons t rest ih =>
      cases rest with
      | nil =>
          simp only [List.nil_append, List.singleton_append]
          rw [joinSp_cons t hB]
          rfl
      | cons u r =>
          rw [List.cons_append, joinSp_cons t (by simp),
            joinSp_cons t (by simp), ih (by simp)]
          simp

theorem glue_nil_left (b : List Char) : glue [] b = b := by simp [glue]

theorem glue_nil_right (a : List Char) : glue a [] = a := by
  by_cases h : a = [] <;> simp [glue, h]

theorem glue_assoc (a b c : List Char) :
    glue (glue a b) c = glue a (glue b c) := by
  by_cases ha : a = [] <;> by_cases hb : b = [] <;> by_cases hc : c = [] <;>
    simp [glue, ha, hb, hc]

theorem glue_ne_nil_left {a : List Char} (b : List Char) (ha : a ≠ []) :
    glue a b ≠ [] := by
  by_cases hb : b = [] <;> simp [glue, ha, hb]

theorem joinSp_eq_glue (t : List Char) {rest : List (List Char)}
    (h : rest = [] ∨ joinSp rest ≠ []) (ht : t ≠ []) :
    joinSp (t :: rest) = glue t (joinSp rest) := by
  rcases h with h | h
  · subst h; simp [joinSp, glue, ht]
  · have hrest : rest ≠ [] := by
      intro hx; rw [hx] at h; exact h rfl
    rw [joinSp_cons t hrest]
    simp [glue, ht, h]

theorem joinSp_append_single (A : List (List Char)) (x : List Char)
    (hx : x ≠ []) (hA : ∀ t ∈ A, t ≠ []) :
    joinSp (A ++ [x]) = glue (joinSp A) x := by
  cases A with
  | nil => simp [joinSp, glue_nil_left]
  | cons t rest =>
      rw [joinSp_append (by simp) (by simp)]
      have : joinSp (t :: rest) ≠ [] := joinSp_ne_nil (by simp) hA
      simp [joinSp, glue, this, hx]

/-! ## Facts about the adjacency predicates -/

theorem adjPairsOK_tail {p : Char → Char → Bool} {a : Char} {l : List Char}
    (h : adjPairsOK p (a :: l) = true) : adjPairsOK p l = true := by
  cases l with
  | nil => rfl
  | cons b t =>
      simp only [adjPairsOK, Bool.and_eq_true] at h
      exact h.2

theorem adjPairsOK_append_right {p : Char → Char → Bool} {l1 l2 : List Char}
    (h : adjPairsOK p (l1 ++ l2) = true) : adjPairsOK p l2 = true := by
  induction l1 with
  | nil => exact h
  | cons a t ih => exact ih (adjPairsOK_tail h)

theorem adjPairsOK_append_left {p : Char → Char → Bool} {l1 l2 : List Char}
    (h : adjPairsOK p (l1 ++ l2) = true) : adjPairsOK p l1 = true := by
  induction l1 with
  | nil => rfl
  | cons a t ih =>
      cases t with
      | nil => rfl
      | cons b t' =>
          simp only [List.cons_append, adjPairsOK, Bool.and_eq_true] at h
          refine (Bool.and_eq_true _ _).mpr ⟨h.1, ih ?_⟩
          exact h.2

theorem adjPairsOK_pair {p : Char → Char → Bool} (l1 l2 : List Char)
    {a b : Char} (h : adjPairsOK p (l1 ++ a :: b :: l2) = true) :
    p a b = true := by
  have h2 := adjPairsOK_append_right h
  simp only [adjPairsOK, Bool.and_eq_true] at h2
  exact h2.1

theorem adjPairsOK_infix {p : Char → Char → Bool} {m l : List Char}
    (hinf : m <:+: l) (h : adjPairsOK p l = true) : adjPairsOK p m = true := by
  obtain ⟨t, s, rfl⟩ := hinf
  rw [List.append_assoc] at h
  exact adjPairsOK_append_left (adjPairsOK_append_right h)

theorem trimR_pre (m : List Char) : trimR m <+: m := by
  have h : (trimR m).reverse <:+ m.reverse := by
    unfold trimR
    rw [List.reverse_reverse]
    exact List.dropWhile_suffix isJsWs
  exact List.reverse_suffix.mp h

theorem trimChars_infix (l : List Char) : trimChars l <:+: l :=
  List.IsInfix.trans (trimR_pre (trimL l)).isInfix
    (List.dropWhile_suffix isJsWs).isInfix

theorem wsCanonB_of_subset {l m : List Char} (hsub : ∀ x ∈ m, x ∈ l)
    (h : wsCanonB l = true) : wsCanonB m = true := by
  simp only [wsCanonB, List.all_eq_true] at h ⊢
  exact fun x hx => h x (hsub x hx)

theorem headNonWs_iff (l : List Char) :
    headNonWs l = true ↔ ∀ x, l.head? = some x → isJsWs x = false := by
  cases l with
  | nil => simp [headNonWs]
  | cons c t => simp [headNonWs]

theorem lastNonWs_iff (l : List Char) :
    lastNonWs l = true ↔ ∀ x, l.getLast? = some x → isJsWs x = false := by
  unfold lastNonWs
  cases hl : l.getLast? with
  | none =>
      simp only [hl]
      constructor
      · intro _ x hx; cases hx
      · intro _; trivial
  | some c =>
      simp only [hl]
      constructor
      · intro h x hx
        cases hx
        simpa using h
      · intro h
        simpa using h c rfl

/-! ## Facts about `collapseWs` -/

theorem mem_collapseWs {l : List Char} {x : Char} (hx : x ∈ l)
    (hws : isJsWs x = false) : x ∈ collapseWs l := by
  induction l with
  | nil => cases hx
  | cons c rest ih =>
      cases rest with
      | nil =>
          rcases List.mem_singleton.mp hx with rfl
          simp [collapseWs, hws]
      | cons d r =>
          by_cases hcd : isJsWs c && isJsWs d
          · rw [collapseWs, if_pos hcd]
            rcases List.mem_cons.mp hx with rfl | hx2
            · rw [hws] at hcd; simp at hcd
            · exact ih hx2
          · rw [collapseWs, if_neg hcd]
            rcases List.mem_cons.mp hx with rfl | hx2
            · rw [hws]
              simp
            · exact List.mem_cons_of_mem _ (ih hx2)

theorem collapseWs_head (c : Char) (rest : List Char) :
    (collapseWs (c :: rest)).head? = some (if isJsWs c then ' ' else c) := by
  induction rest generalizing c with
  | nil => by_cases hc : isJsWs c <;> simp [collapseWs, hc]
  | cons d r ih =>
      by_cases hcd : isJsWs c && isJsWs d
      · rw [collapseWs, if_pos hcd, ih d]
        simp only [Bool.and_eq_true] at hcd
        rw [if_pos hcd.1, if_pos hcd.2]
      · rw [collapseWs, if_neg hcd]
        rfl

theorem collapseWs_wsCanon (l : List Char) : wsCanonB (collapseWs l) = true := by
  induction l with
  | nil => rfl
  | cons c rest ih =>
      cases rest with
      | nil =>
          by_cases hc : isJsWs c <;> simp [collapseWs, wsCanonB, hc]
      | cons d r =>
          by_cases hcd : isJsWs c && isJsWs d
          · rw [collapseWs, if_pos hcd]; exact ih
          · rw [collapseWs, if_neg hcd]
            simp only [wsCanonB, List.all_cons, Bool.and_eq_true] at ih ⊢
            refine ⟨?_, ih⟩
            by_cases hc : isJsWs c <;> simp [hc]

theorem collapseWs_noDbl (l : List Char) : noDblSpace (collapseWs l) = true := by
  induction l with
  | nil => rfl
  | cons c rest ih =>
      cases rest with
      | nil =>
          by_cases hc : isJsWs c <;> simp [collapseWs, noDblSpace, adjPairsOK, hc]
      | cons d r =>
          by_cases hcd : isJsWs c && isJsWs d
          · rw [collapseWs, if_pos hcd]; exact ih
          · rw [collapseWs, if_neg hcd]
            -- goal: noDblSpace ((if isJsWs c then ' ' else c) :: collapseWs (d :: r))
            cases hX : collapseWs (d :: r) with
            | nil => simp [noDblSpace, adjPairsOK]
            | cons x xs =>
                have hx : x = if isJsWs d then ' ' else d := by
                  have := collapseWs_head d r
                  rw [hX] at this
                  simpa using this
                rw [hX] at ih
                simp only [noDblSpace, adjPairsOK, Bool.and_eq_true] at ih ⊢
                refine ⟨?_, ih⟩
                simp only [Bool.and_eq_true, Bool.not_eq_true'] at hcd ⊢
                by_cases hc : isJsWs c
                · have hd : isJsWs d = false := by
                    cases hd2 : isJsWs d
                    · rfl
                    · rw [hc, hd2] at hcd; simp at hcd
                  subst hx
                  rw [if_pos hc, if_neg (by simp [hd])]
                  have : ¬ d = ' ' := by
                    intro hd3
                    rw [hd3] at hd
                    rw [show isJsWs ' ' = true from by decide] at hd
                    cases hd
                  simp [this]
                · rw [if_neg hc]
                  have : ¬ c = ' ' := by
                    intro hc3
                    rw [hc3] at hc
                    exact hc (by decide)
                  simp [this]

theorem collapseWs_fixpoint {l : List Char} (hcanon : wsCanonB l = true)
    (hdbl : noDblSpace l = true) : collapseWs l = l := by
  induction l with
  | nil => rfl
  | cons c rest ih =>
      cases rest with
      | nil =>
          simp only [wsCanonB, List.all_cons, List.all_nil, Bool.and_true,
            Bool.or_eq_true, Bool.not_eq_true', decide_eq_true_eq] at hcanon
          rcases hcanon with hc | hc
          · simp [collapseWs, hc]
          · subst hc; simp [collapseWs]
      | cons d r =>
          have hc2 : adjPairsOK (fun a b => !(a = ' ' && b = ' '))
              (c :: d :: r) = true := hdbl
          simp only [adjPairsOK, Bool.and_eq_true] at hc2
          simp only [wsCanonB, List.all_cons, Bool.and_eq_true,
            Bool.or_eq_true, Bool.not_eq_true', decide_eq_true_eq] at hcanon
          have hskip : ¬(isJsWs c && isJsWs d) = true := by
            intro hcd
            simp only [Bool.and_eq_true] at hcd
            rcases hcanon.1 with h1 | h1
            · rw [hcd.1] at h1; cases h1
            · rcases hcanon.2.1 with h2 | h2
              · rw [hcd.2] at h2; cases h2
              · rw [h1, h2] at hc2
                simp at hc2
          rw [collapseWs, if_neg hskip]
          have ihr : collapseWs (d :: r) = d :: r := by
            refine ih ?_ (adjPairsOK_tail hdbl)
            simp only [wsCanonB, List.all_cons, Bool.and_eq_true]
            exact ⟨by rcases hcanon.2.1 with h | h <;> simp [h], hcanon.2.2⟩
          rw [ihr]
          rcases hcanon.1 with h1 | h1
          · rw [if_neg (by simp [h1])]
          · subst h1; rw [if_pos (show isJsWs ' ' = true from by decide)]

/-- The result of `replace(/\s+/g,' ').trim()` is in normal form. -/
theorem fullNorm_normalize (l : List Char) :
    fullNorm (trimChars (collapseWs l)) = true := by
  have hinf := trimChars_infix (collapseWs l)
  have hcanon : wsCanonB (trimChars (collapseWs l)) = true :=
    wsCanonB_of_subset (fun x hx => hinf.subset hx) (collapseWs_wsCanon l)
  have hdbl : noDblSpace (trimChars (collapseWs l)) = true :=
    adjPairsOK_infix hinf (collapseWs_noDbl l)
  have hh : headNonWs (trimChars (collapseWs l)) = true :=
    (headNonWs_iff _).mpr fun x hx => head?_trimChars hx
  have hl : lastNonWs (trimChars (collapseWs l)) = true :=
    (lastNonWs_iff _).mpr fun x hx => getLast?_trimChars hx
  simp only [fullNorm, Bool.and_eq_true]
  exact ⟨⟨⟨hcanon, hdbl⟩, hh⟩, hl⟩

/-- A string in normal form is unchanged by renormalisation. -/
theorem normalize_fixpoint {l : List Char} (h : fullNorm l = true) :
    trimChars (collapseWs l) = l := by
  simp only [fullNorm, Bool.and_eq_true] at h
  rw [collapseWs_fixpoint h.1.1.1 h.1.1.2]
  exact trimChars_eq_self l ((headNonWs_iff l).mp h.1.2)
    ((lastNonWs_iff l).mp h.2)

/-! ## Facts about the whitespace tokenisers -/

theorem lastNonWs_tail {c : Char} {l : List Char}
    (h : lastNonWs (c :: l) = true) : lastNonWs l = true := by
  cases l with
  | nil => rfl
  | cons d r =>
      unfold lastNonWs at h ⊢
      rwa [List.getLast?_cons_cons] at h

theorem splitWsGo_tokens {l cur : List Char}
    (hcur : ∀ x ∈ cur, isJsWs x = false) :
    ∀ t ∈ splitWsGo cur l, t ≠ [] ∧ ∀ x ∈ t, isJsWs x = false := by
  induction l generalizing cur with
  | nil =>
      intro t ht
      by_cases h : cur = []
      · rw [splitWsGo, if_pos h] at ht; cases ht
      · rw [splitWsGo, if_neg h] at ht
        rcases List.mem_singleton.mp ht with rfl
        exact ⟨h, hcur⟩
  | cons c rest ih =>
      intro t ht
      by_cases hc : isJsWs c
      · by_cases hcurnil : cur = []
        · rw [splitWsGo, if_pos hc, if_pos hcurnil] at ht
          exact ih (by intro x hx; cases hx) t ht
        · rw [splitWsGo, if_pos hc, if_neg hcurnil] at ht
          rcases List.mem_cons.mp ht with rfl | ht2
          · exact ⟨hcurnil, hcur⟩
          · exact ih (by intro x hx; cases hx) t ht2
      · rw [splitWsGo, if_neg hc] at ht
        refine ih ?_ t ht
        intro x hx
        rcases List.mem_append.mp hx with hx | hx
        · exact hcur x hx
        · rcases List.mem_singleton.mp hx with rfl
          simpa using hc

theorem splitWs_tokens {l : List Char} :
    ∀ t ∈ splitWs l, t ≠ [] ∧ ∀ x ∈ t, isJsWs x = false :=
  splitWsGo_tokens (by intro x hx; cases hx)

theorem joinSp_splitWsGo {l : List Char} :
    ∀ cur : List Char, wsCanonB l = true → noDblSpace l = true →
    (cur = [] → headNonWs l = true) → lastNonWs l = true →
    joinSp (splitWsGo cur l) = cur ++ l := by
  induction l with
  | nil =>
      intro cur _ _ _ _
      by_cases h : cur = []
      · rw [splitWsGo, if_pos h, h]; rfl
      · rw [splitWsGo, if_neg h]; simp [joinSp]
  | cons c rest ih =>
      intro cur hcanon hdbl hhead hlast
      by_cases hc : isJsWs c
      · -- whitespace: canon forces c = ' '
        have hcsp : c = ' ' := by
          simp only [wsCanonB, List.all_cons, Bool.and_eq_true,
            Bool.or_eq_true, Bool.not_eq_true', decide_eq_true_eq] at hcanon
          rcases hcanon.1 with h | h
          · rw [hc] at h; cases h
          · exact h
        have hcurne : cur ≠ [] := by
          intro hnil
          have := hhead hnil
          unfold headNonWs at this
          simp only [List.head?_cons] at this
          rw [hc] at this
          cases this
        rw [splitWsGo, if_pos hc, if_neg hcurne]
        have hrestne : rest ≠ [] := by
          intro hnil
          subst hnil
          unfold lastNonWs at hlast
          simp only [List.getLast?_singleton] at hlast
          rw [hc] at hlast
          cases hlast
        have hheadrest : headNonWs rest = true := by
          cases rest with
          | nil => rfl
          | cons d r =>
              have hpair : (!(c = ' ' && d = ' ')) = true :=
                adjPairsOK_pair [] r hdbl
              have hdsp : ¬ d = ' ' := by
                subst hcsp
                intro hd
                subst hd
                simp at hpair
              unfold headNonWs
              simp only [List.head?_cons]
              simp only [wsCanonB, List.all_cons, Bool.and_eq_true,
                Bool.or_eq_true, Bool.not_eq_true', decide_eq_true_eq] at hcanon
              rcases hcanon.2.1 with h | h
              · simp [h]
              · exact absurd h hdsp
        have hrec := ih [] (by
            simp only [wsCanonB, List.all_cons, Bool.and_eq_true] at hcanon
            exact hcanon.2)
          (adjPairsOK_tail hdbl) (fun _ => hheadrest) (lastNonWs_tail hlast)
        have hSne : splitWsGo [] rest ≠ [] := by
          intro hnil
          rw [hnil] at hrec
          exact hrestne (by simpa [joinSp] using hrec.symm)
        rw [joinSp_cons cur hSne, hrec]
        simp [hcsp]
      · rw [splitWsGo, if_neg hc]
        have hrec := ih (cur ++ [c]) (by
            simp only [wsCanonB, List.all_cons, Bool.and_eq_true] at hcanon
            exact hcanon.2)
          (adjPairsOK_tail hdbl) (by simp) (lastNonWs_tail hlast)
        rw [hrec]
        simp

/-- Tokenising a normal-form string and re-joining with single spaces is the
identity. -/
theorem joinSp_splitWs {l : List Char} (h : fullNorm l = true) :
    joinSp (splitWs l) = l := by
  simp only [fullNorm, Bool.and_eq_true] at h
  exact joinSp_splitWsGo [] h.1.1.1 h.1.1.2 (fun _ => h.1.2) h.2

/-- Uppercase ASCII letters are not whitespace. -/
theorem isUpperAZ_not_ws {m : Char} (h : isUpperAZ m = true) :
    isJsWs m = false := by
  simp only [isUpperAZ, Bool.and_eq_true, decide_eq_true_eq] at h
  obtain ⟨h1, h2⟩ := h
  cases hws : isJsWs m
  · rfl
  · exfalso
    have hmem : m ∈ jsWsChars := by
      have := hws
      unfold isJsWs at this
      exact List.elem_iff.mp this
    simp only [jsWsChars, List.mem_cons, List.mem_singleton,
      List.not_mem_nil, or_false] at hmem
    rcases hmem with h | h | h | h | h | h | h | h | h | h | h | h | h | h |
      h | h | h | h | h | h | h | h | h | h | h
    all_goals subst h
    all_goals revert h1 h2
    all_goals decide

/-- On a non-empty string with no outer whitespace, the JS tokeniser produces
no empty edge tokens. -/
theorem jsSplitWs_eq_splitWs {l : List Char} (hne : l ≠ [])
    (hh : headNonWs l = true) (hl : lastNonWs l = true) :
    jsSplitWs l = splitWs l := by
  cases l with
  | nil => exact absurd rfl hne
  | cons c rest =>
      simp only [jsSplitWs]
      unfold headNonWs at hh
      simp only [List.head?_cons] at hh
      rw [if_neg (by simpa using hh)]
      unfold lastNonWs at hl
      cases hlast : (c :: rest).getLast? with
      | none => simp at hlast
      | some y =>
          rw [hlast] at hl
          have : (c :: rest).getLastD c = y := by
            rw [List.getLastD_eq_getLast?, hlast]
            rfl
          rw [this, if_neg (by simpa using hl)]
          simp

/-! ## Facts about the sentence scanner -/

theorem lastNonWs_append_right (l1 : List Char) {l2 : List Char}
    (h : lastNonWs (l1 ++ l2) = true) (hne : l2 ≠ []) : lastNonWs l2 = true := by
  unfold lastNonWs at h ⊢
  rwa [List.getLast?_append_of_ne_nil l1 hne] at h

theorem trimL_ne_nil_of_trimChars {l : List Char} (h : trimChars l ≠ []) :
    trimL l ≠ [] := by
  intro hnil
  apply h
  unfold trimChars
  rw [hnil]
  rfl

theorem fullNorm_trimChars {l : List Char} (hcanon : wsCanonB l = true)
    (hdbl : noDblSpace l = true) : fullNorm (trimChars l) = true := by
  have hinf := trimChars_infix l
  simp only [fullNorm, Bool.and_eq_true]
  refine ⟨⟨⟨wsCanonB_of_subset (fun x hx => hinf.subset hx) hcanon,
    adjPairsOK_infix hinf hdbl⟩, ?_⟩, ?_⟩
  · exact (headNonWs_iff _).mpr fun x hx => head?_trimChars hx
  · exact (lastNonWs_iff _).mpr fun x hx => getLast?_trimChars hx

/-- Reconstruction invariant of the sentence scan: joining the emitted
sentences with single spaces gives the unread input prefixed by the pending
accumulator, up to the leading whitespace the `trim()` of the first emission
removes.  Requires that no terminator is immediately followed by a quotation
mark (otherwise a sentence break happens with no whitespace to absorb the
join separator). -/
theorem joinSp_sentGo : ∀ (rest acc : List Char),
    lastNonWs (acc ++ rest) = true →
    noTermThenQuote (acc ++ rest) = true →
    joinSp (sentGo acc rest) = trimL (acc ++ rest) := by
  intro rest
  induction rest with
  | nil =>
      intro acc hlast _
      simp only [List.append_nil] at hlast ⊢
      cases hacc : acc.getLast? with
      | none =>
          have : acc = [] := List.getLast?_eq_none_iff.mp hacc
          subst this
          decide
      | some y =>
          have hy : isJsWs y = false := (lastNonWs_iff acc).mp hlast y hacc
          have hne : trimChars acc ≠ [] :=
            trimChars_ne_nil (List.mem_of_getLast?_eq_some hacc) hy
          simp only [sentGo]
          rw [if_neg hne]
          show trimChars acc = trimL acc
          exact trimChars_eq_trimL acc ((lastNonWs_iff acc).mp hlast)
  | cons c rest' ih =>
      intro acc hlast hq
      cases hcond : (isTerminator c && sentenceEndCheck rest' &&
          !isAbbrevLastWord (acc ++ [c])) with
      | false =>
          have hstep : sentGo acc (c :: rest') = sentGo (acc ++ [c]) rest' := by
            simp only [sentGo]
            rw [if_neg (by simp [hcond])]
          rw [hstep,
            ih (acc ++ [c]) (by simpa [List.append_assoc] using hlast)
              (by simpa [List.append_assoc] using hq)]
          simp
      | true =>
          have h3 := hcond
          simp only [Bool.and_eq_true] at h3
          obtain ⟨⟨hterm, hend⟩, _⟩ := h3
          have hcnw := isTerminator_not_ws hterm
          have hne : trimChars (acc ++ [c]) ≠ [] :=
            trimChars_ne_nil (by simp : c ∈ acc ++ [c]) hcnw
          have hstep : sentGo acc (c :: rest') =
              trimChars (acc ++ [c]) :: sentGo [] rest' := by
            simp only [sentGo]
            rw [if_pos hcond, if_neg hne]
          rw [hstep]
          have htc : trimChars (acc ++ [c]) = trimL (acc ++ [c]) :=
            trimChars_eq_trimL _ (fun x hx => by
              rw [List.getLast?_concat] at hx
              cases hx
              exact hcnw)
          have htlne : trimL (acc ++ [c]) ≠ [] := trimL_ne_nil_of_trimChars hne
          have hsplit : trimL (acc ++ c :: rest') =
              trimL (acc ++ [c]) ++ rest' := by
            rw [show acc ++ c :: rest' = (acc ++ [c]) ++ rest' by simp,
              trimL_append_of_ne_nil _ htlne]
          cases rest' with
          | nil =>
              have hz : sentGo [] ([] : List Char) = [] := by decide
              rw [hz]
              show trimChars (acc ++ [c]) = trimL (acc ++ c :: [])
              rw [htc, hsplit]
          | cons n rest'' =>
              have hqn : isQuoteChar n = false := by
                have hp : (!(isTerminator c && isQuoteChar n)) = true :=
                  adjPairsOK_pair acc rest'' hq
                cases hqn2 : isQuoteChar n
                · rfl
                · rw [hterm, hqn2] at hp
                  cases hp
              have hq1 : ¬ n = '"' := by
                intro h0
                rw [isQuoteChar, h0] at hqn
                simp at hqn
              have hq2 : ¬ n = '\'' := by
                intro h0
                rw [isQuoteChar, h0] at hqn
                simp at hqn
              simp only [sentenceEndCheck, Bool.or_eq_true, Bool.and_eq_true,
                decide_eq_true_eq] at hend
              have hkey : n = ' ' ∧ ∃ m r3, rest'' = m :: r3 ∧
                  isJsWs m = false := by
                rcases hend with ((⟨hnsp, hm⟩ | hquote) | hquote) | ⟨hnsp, hm⟩
                · cases rest'' with
                  | nil => cases hm
                  | cons m r3 => exact ⟨hnsp, m, r3, rfl, isUpperAZ_not_ws hm⟩
                · exact absurd hquote hq1
                · exact absurd hquote hq2
                · cases rest'' with
                  | nil => cases hm
                  | cons m r3 =>
                      refine ⟨hnsp, m, r3, rfl, ?_⟩
                      have hm2 : m = '"' := of_decide_eq_true hm
                      rw [hm2]
                      decide
              obtain ⟨hnsp, m, r3, rfl, hm_nw⟩ := hkey
              subst hnsp
              have hlast' : lastNonWs (' ' :: m :: r3) = true :=
                lastNonWs_append_right (acc ++ [c])
                  (by simpa [List.append_assoc] using hlast) (by simp)
              have hq'' : adjPairsOK
                  (fun a b => !(isTerminator a && isQuoteChar b))
                  ((acc ++ [c]) ++ (' ' :: m :: r3)) = true := by
                rw [show (acc ++ [c]) ++ (' ' :: m :: r3) =
                  acc ++ c :: ' ' :: m :: r3 by simp]
                exact hq
              have hq' : noTermThenQuote (' ' :: m :: r3) = true :=
                adjPairsOK_append_right hq''
              have hrec : joinSp (sentGo [] (' ' :: m :: r3)) =
                  trimL (' ' :: m :: r3) := ih [] hlast' hq'
              have htl_rest : trimL (' ' :: m :: r3) = m :: r3 := by
                rw [trimL, List.dropWhile_cons,
                  if_pos (show isJsWs ' ' = true from by decide)]
                exact trimL_cons_of_not_ws r3 hm_nw
              have hSne : sentGo [] (' ' :: m :: r3) ≠ [] := by
                intro h0
                rw [h0, htl_rest] at hrec
                simp [joinSp] at hrec
              rw [joinSp_cons _ hSne, hrec, htc, hsplit, htl_rest]

/-- Reconstruction for `splitIntoSentences`: on a normalised text with no
terminator-quote adjacency, joining the sentences with single spaces gives
back the text. -/
theorem joinSp_splitIntoSentencesL {text : List Char}
    (hnorm : fullNorm text = true) (hq : noTermThenQuote text = true) :
    joinSp (splitIntoSentencesL text) = text := by
  unfold splitIntoSentencesL
  by_cases hs : sentGo [] text = []
  · rw [if_pos hs]
    rfl
  · rw [if_neg hs]
    have hlast : lastNonWs ([] ++ text) = true := by
      simp only [fullNorm, Bool.and_eq_true] at hnorm
      simpa using hnorm.2
    have := joinSp_sentGo text [] hlast (by simpa using hq)
    rw [this]
    simp only [List.nil_append]
    apply trimL_eq_self
    simp only [fullNorm, Bool.and_eq_true] at hnorm
    exact (headNonWs_iff text).mp hnorm.1.2

/-- Every sentence emitted by the scan on a canonical text is non-empty and
in normal form. -/
theorem sentGo_mem_norm : ∀ (rest acc s : List Char),
    wsCanonB (acc ++ rest) = true → noDblSpace (acc ++ rest) = true →
    s ∈ sentGo acc rest → s ≠ [] ∧ fullNorm s = true := by
  intro rest
  induction rest with
  | nil =>
      intro acc s hcanon hdbl hs
      simp only [List.append_nil] at hcanon hdbl
      by_cases hne : trimChars acc = []
      · rw [sentGo, if_pos hne] at hs
        cases hs
      · rw [sentGo, if_neg hne] at hs
        rcases List.mem_singleton.mp hs with rfl
        exact ⟨hne, fullNorm_trimChars hcanon hdbl⟩
  | cons c rest' ih =>
      intro acc s hcanon hdbl hs
      have hcanon' : wsCanonB ((acc ++ [c]) ++ rest') = true := by
        simpa [List.append_assoc] using hcanon
      have hdbl' : noDblSpace ((acc ++ [c]) ++ rest') = true := by
        simpa [List.append_assoc] using hdbl
      have hcanonR : wsCanonB ([] ++ rest') = true := by
        simp only [List.nil_append]
        refine wsCanonB_of_subset (l := (acc ++ [c]) ++ rest') ?_ hcanon'
        intro x hx
        simp [hx]
      have hdblR : noDblSpace ([] ++ rest') = true := by
        simp only [List.nil_append]
        exact adjPairsOK_append_right hdbl'
      cases hcond : (isTerminator c && sentenceEndCheck rest' &&
          !isAbbrevLastWord (acc ++ [c])) with
      | false =>
          rw [sentGo, if_neg (by simp [hcond])] at hs
          exact ih (acc ++ [c]) s hcanon' hdbl' hs
      | true =>
          rw [sentGo, if_pos hcond] at hs
          by_cases hne : trimChars (acc ++ [c]) = []
          · rw [if_pos hne] at hs
            exact ih [] s hcanonR hdblR hs
          · rw [if_neg hne] at hs
            rcases List.mem_cons.mp hs with rfl | hs2
            · refine ⟨hne, fullNorm_trimChars ?_ ?_⟩
              · refine wsCanonB_of_subset (l := (acc ++ [c]) ++ rest') ?_ hcanon'
                intro x hx
                simp only [List.mem_append] at hx ⊢
                tauto
              · exact adjPairsOK_append_left hdbl'
            · exact ih [] s hcanonR hdblR hs2

/-- The step behaviour the amended claim C8 describes: a terminator
immediately followed by a quotation mark always ends the sentence (provided
the abbreviation check passes), regardless of what follows the quote. -/
theorem sentGo_terminator_quote (acc : List Char) {c q : Char}
    (rest : List Char) (hterm : isTerminator c = true)
    (hquote : isQuoteChar q = true)
    (habb : isAbbrevLastWord (acc ++ [c]) = false) :
    sentGo acc (c :: q :: rest) =
      trimChars (acc ++ [c]) :: sentGo [] (q :: rest) := by
  have hend : sentenceEndCheck (q :: rest) = true := by
    simp only [isQuoteChar, Bool.or_eq_true, decide_eq_true_eq] at hquote
    rcases hquote with h | h <;> simp [sentenceEndCheck, h]
  have hne : trimChars (acc ++ [c]) ≠ [] :=
    trimChars_ne_nil (by simp : c ∈ acc ++ [c]) (isTerminator_not_ws hterm)
  rw [sentGo, if_pos (by rw [hterm, hend, habb]; rfl), if_neg hne]

/-! ## Facts about the chunk loop -/

theorem joinSp_words_outer {cur : List (List Char)}
    (hcur : ∀ t ∈ cur, t ≠ [] ∧ ∀ x ∈ t, isJsWs x = false) (hne : cur ≠ []) :
    headNonWs (joinSp cur) = true ∧ lastNonWs (joinSp cur) = true := by
  induction cur with
  | nil => exact absurd rfl hne
  | cons t rest ih =>
      obtain ⟨htne, htws⟩ := hcur t (by simp)
      cases rest with
      | nil =>
          constructor
          · rw [headNonWs_iff]
            intro x hx
            exact htws x (List.mem_of_mem_head? hx)
          · rw [lastNonWs_iff]
            intro x hx
            exact htws x (List.mem_of_getLast?_eq_some hx)
      | cons u rest' =>
          have hrest := ih (fun v hv => hcur v (by simp [hv])) (by simp)
          have hJne : joinSp (u :: rest') ≠ [] :=
            joinSp_ne_nil (by simp) (fun v hv => (hcur v (by simp [hv])).1)
          rw [joinSp_cons t (by simp)]
          constructor
          · rw [headNonWs_iff]
            intro x hx
            rw [List.head?_append] at hx
            cases t with
            | nil => exact absurd rfl htne
            | cons a t' =>
                simp only [List.head?_cons, Option.or_some, Option.some_inj] at hx
                subst hx
                exact htws a (by simp)
          · rw [lastNonWs_iff]
            intro x hx
            rw [List.getLast?_append_of_ne_nil _ (by simp : ' ' :: joinSp (u :: rest') ≠ [])] at hx
            rw [show (' ' :: joinSp (u :: rest') : List Char) = [' '] ++ joinSp (u :: rest') from rfl,
              List.getLast?_append_of_ne_nil _ hJne] at hx
            exact (lastNonWs_iff _).mp hrest.2 x hx

theorem trimChars_joinSp_words {cur : List (List Char)}
    (hcur : ∀ t ∈ cur, t ≠ [] ∧ ∀ x ∈ t, isJsWs x = false) (hne : cur ≠ []) :
    trimChars (joinSp cur) = joinSp cur := by
  obtain ⟨hh, hl⟩ := joinSp_words_outer hcur hne
  exact trimChars_eq_self _ ((headNonWs_iff _).mp hh) ((lastNonWs_iff _).mp hl)

theorem joinSp_cons_glue (w : List Char) {rest : List (List Char)}
    (hw : w ≠ []) (hrest : ∀ t ∈ rest, t ≠ []) :
    joinSp (w :: rest) = glue w (joinSp rest) := by
  cases rest with
  | nil => simp [joinSp, glue_nil_right]
  | cons u rest' =>
      rw [joinSp_cons w (by simp)]
      have : joinSp (u :: rest') ≠ [] := joinSp_ne_nil (by simp) hrest
      simp [glue, hw, this]

theorem joinSp_dropLast_merge : ∀ (A : List (List Char)) (t : List Char),
    A ≠ [] →
    joinSp (A.dropLast ++ [A.getLastD [] ++ ' ' :: t]) = joinSp A ++ ' ' :: t := by
  intro A t hA
  induction A with
  | nil => exact absurd rfl hA
  | cons a A' ih =>
      cases A' with
      | nil => simp [joinSp, List.dropLast, List.getLastD]
      | cons b A'' =>
          have hg : (a :: b :: A'').getLastD [] = (b :: A'').getLastD [] := by
            rw [List.getLastD_eq_getLast?, List.getLastD_eq_getLast?,
              List.getLast?_cons_cons]
          rw [List.dropLast_cons₂, hg, List.cons_append,
            joinSp_cons a (by simp), ih (by simp),
            joinSp_cons a (by simp)]
          simp

theorem joinSp_chunkGoAcc (ws : List (List Char)) :
    ∀ (chunks cur : List (List Char)),
    (∀ t ∈ chunks, t ≠ []) →
    (∀ t ∈ cur, t ≠ [] ∧ ∀ x ∈ t, isJsWs x = false) →
    (∀ t ∈ ws, t ≠ [] ∧ ∀ x ∈ t, isJsWs x = false) →
    joinSp (chunkGoAcc chunks cur ws) =
      glue (joinSp chunks) (glue (joinSp cur) (joinSp ws)) := by
  induction ws with
  | nil =>
      intro chunks cur hch hcur _
      by_cases hc : cur = []
      · simp only [chunkGoAcc]
        rw [if_pos hc]
        subst hc
        simp [joinSp, glue_nil_right]
      · have htfix : trimChars (joinSp cur) = joinSp cur :=
          trimChars_joinSp_words hcur hc
        have htne : joinSp cur ≠ [] :=
          joinSp_ne_nil hc (fun t ht => (hcur t ht).1)
        simp only [chunkGoAcc]
        rw [if_neg hc, if_neg (by rw [htfix]; exact htne)]
        by_cases hm : chunks ≠ [] ∧ cur.length < MIN_CHUNK_WORDS
        · rw [if_pos hm, joinSp_dropLast_merge chunks _ hm.1, htfix]
          have h1 : joinSp chunks ≠ [] := joinSp_ne_nil hm.1 hch
          simp [joinSp, glue, h1, htne]
        · rw [if_neg hm,
            joinSp_append_single chunks _ (by rw [htfix]; exact htne) hch,
            htfix]
          simp [joinSp, glue_nil_right]
  | cons w rest ih =>
      intro chunks cur hch hcur hws
      obtain ⟨hwne, hwws⟩ := hws w (by simp)
      have hcur2 : ∀ t ∈ cur ++ [w], t ≠ [] ∧ ∀ x ∈ t, isJsWs x = false := by
        intro t ht
        rcases List.mem_append.mp ht with h | h
        · exact hcur t h
        · rcases List.mem_singleton.mp h with rfl
          exact ⟨hwne, hwws⟩
      have hrest : ∀ t ∈ rest, t ≠ [] ∧ ∀ x ∈ t, isJsWs x = false :=
        fun t ht => hws t (by simp [ht])
      have htfix2 : trimChars (joinSp (cur ++ [w])) = joinSp (cur ++ [w]) :=
        trimChars_joinSp_words hcur2 (by simp)
      have htne2 : joinSp (cur ++ [w]) ≠ [] :=
        joinSp_ne_nil (by simp) (fun t ht => (hcur2 t ht).1)
      have hjw : joinSp (cur ++ [w]) = glue (joinSp cur) w :=
        joinSp_append_single cur w hwne (fun t ht => (hcur t ht).1)
      have hjws : joinSp (w :: rest) = glue w (joinSp rest) :=
        joinSp_cons_glue w hwne (fun t ht => (hrest t ht).1)
      simp only [chunkGoAcc]
      by_cases hE : chunkShouldEnd (cur ++ [w]) w rest = true
      · rw [if_pos hE, if_neg (by rw [htfix2]; exact htne2)]
        rw [ih (chunks ++ [trimChars (joinSp (cur ++ [w]))]) []
          (by
            intro t ht
            rcases List.mem_append.mp ht with h | h
            · exact hch t h
            · rcases List.mem_singleton.mp h with rfl
              rw [htfix2]
              exact htne2)
          (by intro t ht; cases ht) hrest]
        rw [joinSp_append_single chunks _ (by rw [htfix2]; exact htne2) hch,
          htfix2, hjw, hjws]
        rw [show joinSp ([] : List (List Char)) = [] from rfl, glue_nil_left,
          glue_assoc, glue_assoc]
      · rw [if_neg hE, ih chunks (cur ++ [w]) hch hcur2 hrest, hjw, hjws,
          glue_assoc]

theorem trimFix_outer {t : List Char} (_hne : t ≠ []) (hfix : trimChars t = t) :
    headNonWs t = true ∧ lastNonWs t = true := by
  constructor
  · rw [headNonWs_iff]
    intro x hx
    rw [← hfix] at hx
    exact head?_trimChars hx
  · rw [lastNonWs_iff]
    intro x hx
    rw [← hfix] at hx
    exact getLast?_trimChars hx

theorem chunkGoAcc_mem (ws : List (List Char)) :
    ∀ (chunks cur : List (List Char)),
    (∀ t ∈ chunks, t ≠ [] ∧ trimChars t = t) →
    ∀ t ∈ chunkGoAcc chunks cur ws, t ≠ [] ∧ trimChars t = t := by
  induction ws with
  | nil =>
      intro chunks cur hch t ht
      by_cases hc : cur = []
      · simp only [chunkGoAcc] at ht
        rw [if_pos hc] at ht
        exact hch t ht
      · simp only [chunkGoAcc] at ht
        rw [if_neg hc] at ht
        by_cases hz : trimChars (joinSp cur) = []
        · rw [if_pos hz] at ht
          exact hch t ht
        · rw [if_neg hz] at ht
          by_cases hm : chunks ≠ [] ∧ cur.length < MIN_CHUNK_WORDS
          · rw [if_pos hm] at ht
            rcases List.mem_append.mp ht with h | h
            · exact hch t ((List.dropLast_sublist chunks).subset h)
            · rcases List.mem_singleton.mp h with rfl
              have hlastmem : chunks.getLastD [] ∈ chunks := by
                rw [List.getLastD_eq_getLast?]
                cases hgl : chunks.getLast? with
                | none => exact absurd (List.getLast?_eq_none_iff.mp hgl) hm.1
                | some y => exact List.mem_of_getLast?_eq_some hgl
              obtain ⟨hane, hafix⟩ := hch _ hlastmem
              obtain ⟨hah, hal⟩ := trimFix_outer hane hafix
              have hzout := trimFix_outer hz (trimChars_idem (joinSp cur))
              refine ⟨by simp, trimChars_eq_self _ ?_ ?_⟩
              · intro x hx
                rw [List.head?_append] at hx
                cases hch2 : (chunks.getLastD []).head? with
                | none =>
                    exact absurd (List.head?_eq_none_iff.mp hch2) hane
                | some y =>
                    rw [hch2] at hx
                    simp only [Option.or_some, Option.some_inj] at hx
                    subst hx
                    exact (headNonWs_iff _).mp hah y hch2
              · intro x hx
                rw [List.getLast?_append_of_ne_nil _
                  (by simp : ' ' :: trimChars (joinSp cur) ≠ [])] at hx
                rw [show (' ' :: trimChars (joinSp cur) : List Char) =
                  [' '] ++ trimChars (joinSp cur) from rfl,
                  List.getLast?_append_of_ne_nil _ hz] at hx
                exact (lastNonWs_iff _).mp hzout.2 x hx
          · rw [if_neg hm] at ht
            rcases List.mem_append.mp ht with h | h
            · exact hch t h
            · rcases List.mem_singleton.mp h with rfl
              exact ⟨hz, trimChars_idem (joinSp cur)⟩
  | cons w rest ih =>
      intro chunks cur hch t ht
      simp only [chunkGoAcc] at ht
      by_cases hE : chunkShouldEnd (cur ++ [w]) w rest = true
      · rw [if_pos hE] at ht
        by_cases hz : trimChars (joinSp (cur ++ [w])) = []
        · rw [if_pos hz] at ht
          exact ih chunks [] hch t ht
        · rw [if_neg hz] at ht
          refine ih _ [] ?_ t ht
          intro u hu
          rcases List.mem_append.mp hu with h | h
          · exact hch u h
          · rcases List.mem_singleton.mp h with rfl
            exact ⟨hz, trimChars_idem (joinSp (cur ++ [w]))⟩
      · rw [if_neg hE] at ht
        exact ih chunks (cur ++ [w]) hch t ht

theorem chunkGoAcc_ne_nil (ws : List (List Char)) :
    ∀ (chunks cur : List (List Char)),
    (chunks ≠ [] ∨ ws ≠ []) →
    (∀ t ∈ cur, t ≠ [] ∧ ∀ x ∈ t, isJsWs x = false) →
    (∀ t ∈ ws, t ≠ [] ∧ ∀ x ∈ t, isJsWs x = false) →
    chunkGoAcc chunks cur ws ≠ [] := by
  induction ws with
  | nil =>
      intro chunks cur hne hcur _
      have hchne : chunks ≠ [] := by
        rcases hne with h | h
        · exact h
        · exact absurd rfl h
      by_cases hc : cur = []
      · simp only [chunkGoAcc]
        rw [if_pos hc]
        exact hchne
      · simp only [chunkGoAcc]
        rw [if_neg hc]
        by_cases hz : trimChars (joinSp cur) = []
        · rw [if_pos hz]
          exact hchne
        · rw [if_neg hz]
          by_cases hm : chunks ≠ [] ∧ cur.length < MIN_CHUNK_WORDS
          · rw [if_pos hm]
            simp
          · rw [if_neg hm]
            simp
  | cons w rest ih =>
      intro chunks cur _ hcur hws
      obtain ⟨hwne, hwws⟩ := hws w (by simp)
      have hcur2 : ∀ t ∈ cur ++ [w], t ≠ [] ∧ ∀ x ∈ t, isJsWs x = false := by
        intro t ht
        rcases List.mem_append.mp ht with h | h
        · exact hcur t h
        · rcases List.mem_singleton.mp h with rfl
          exact ⟨hwne, hwws⟩
      have hrest : ∀ t ∈ rest, t ≠ [] ∧ ∀ x ∈ t, isJsWs x = false :=
        fun t ht => hws t (by simp [ht])
      have htfix2 : trimChars (joinSp (cur ++ [w])) = joinSp (cur ++ [w]) :=
        trimChars_joinSp_words hcur2 (by simp)
      have htne2 : joinSp (cur ++ [w]) ≠ [] :=
        joinSp_ne_nil (by simp) (fun t ht => (hcur2 t ht).1)
      simp only [chunkGoAcc]
      by_cases hE : chunkShouldEnd (cur ++ [w]) w rest = true
      · rw [if_pos hE, if_neg (by rw [htfix2]; exact htne2)]
        exact ih _ [] (Or.inl (by simp)) (by intro t ht; cases ht) hrest
      · rw [if_neg hE]
        have hrne : rest ≠ [] := by
          intro h0
          subst h0
          rw [chunkShouldEnd] at hE
          simp at hE
        exact ih chunks (cur ++ [w]) (Or.inr hrne) hcur2 hrest

/-! ## The chunk splitter round trip -/

theorem fullNorm_components {s : List Char} (h : fullNorm s = true) :
    wsCanonB s = true ∧ noDblSpace s = true ∧ headNonWs s = true ∧
      lastNonWs s = true := by
  simp only [fullNorm, Bool.and_eq_true] at h
  exact ⟨h.1.1.1, h.1.1.2, h.1.2, h.2⟩

theorem trimChars_eq_self_of_fullNorm {s : List Char} (h : fullNorm s = true) :
    trimChars s = s := by
  obtain ⟨_, _, hh, hl⟩ := fullNorm_components h
  exact trimChars_eq_self s ((headNonWs_iff s).mp hh) ((lastNonWs_iff s).mp hl)

theorem joinSp_splitSentenceIntoChunksL {s : List Char}
    (hnorm : fullNorm s = true) : joinSp (splitSentenceIntoChunksL s) = s := by
  by_cases hs : s = []
  · rw [hs]
    decide
  · obtain ⟨hcanon, hdbl, hh, hl⟩ := fullNorm_components hnorm
    have htrim : trimChars s = s := trimChars_eq_self_of_fullNorm hnorm
    have hjs : jsSplitWs (trimChars s) = splitWs s := by
      rw [htrim]
      exact jsSplitWs_eq_splitWs hs hh hl
    simp only [splitSentenceIntoChunksL]
    rw [hjs, htrim]
    by_cases hlen : (splitWs s).length ≤ MAX_CHUNK_WORDS
    · rw [if_pos hlen]
      rfl
    · rw [if_neg hlen,
        joinSp_chunkGoAcc (splitWs s) [] [] (by intro t ht; cases ht)
          (by intro t ht; cases ht) splitWs_tokens,
        show joinSp ([] : List (List Char)) = [] from rfl,
        glue_nil_left, glue_nil_left]
      exact joinSp_splitWs hnorm

theorem splitSentenceIntoChunksL_mem {s : List Char}
    (hnorm : fullNorm s = true) (hs : s ≠ []) :
    ∀ t ∈ splitSentenceIntoChunksL s, t ≠ [] ∧ trimChars t = t := by
  intro t ht
  have htrim : trimChars s = s := trimChars_eq_self_of_fullNorm hnorm
  simp only [splitSentenceIntoChunksL] at ht
  by_cases hlen : (jsSplitWs (trimChars s)).length ≤ MAX_CHUNK_WORDS
  · rw [if_pos hlen] at ht
    rcases List.mem_singleton.mp ht with rfl
    rw [htrim]
    exact ⟨hs, htrim⟩
  · rw [if_neg hlen] at ht
    exact chunkGoAcc_mem _ [] [] (by intro u hu; cases hu) t ht

theorem splitSentenceIntoChunksL_ne_nil {s : List Char}
    (hnorm : fullNorm s = true) (hs : s ≠ []) :
    splitSentenceIntoChunksL s ≠ [] := by
  obtain ⟨hcanon, hdbl, hh, hl⟩ := fullNorm_components hnorm
  have htrim : trimChars s = s := trimChars_eq_self_of_fullNorm hnorm
  simp only [splitSentenceIntoChunksL]
  by_cases hlen : (jsSplitWs (trimChars s)).length ≤ MAX_CHUNK_WORDS
  · rw [if_pos hlen]
    simp
  · rw [if_neg hlen]
    have hjs : jsSplitWs (trimChars s) = splitWs s := by
      rw [htrim]
      exact jsSplitWs_eq_splitWs hs hh hl
    rw [hjs]
    refine chunkGoAcc_ne_nil _ [] [] (Or.inr ?_) (by intro u hu; cases hu)
      splitWs_tokens
    intro h0
    rw [hjs, h0] at hlen
    exact hlen (by simp [MAX_CHUNK_WORDS])

theorem joinSp_flatten : ∀ (L : List (List (List Char))),
    (∀ l ∈ L, l ≠ []) → joinSp L.flatten = joinSp (L.map joinSp) := by
  intro L
  induction L with
  | nil => intro _; rfl
  | cons l L' ih =>
      intro hL
      cases L' with
      | nil => simp [List.flatten, joinSp]
      | cons l2 L'' =>
          have hl : l ≠ [] := hL l (by simp)
          have hfl : (l2 :: L'').flatten ≠ [] := by
            have hl2 : l2 ≠ [] := hL l2 (by simp)
            rw [List.flatten_cons]
            intro h0
            exact hl2 (List.append_eq_nil.mp h0).1
          rw [List.flatten_cons, joinSp_append hl hfl,
            ih (fun u hu => hL u (by simp [hu]))]
          rw [show List.map joinSp (l :: l2 :: L'') =
            joinSp l :: List.map joinSp (l2 :: L'') from rfl]
          rw [joinSp_cons (joinSp l)
            (by simp : List.map joinSp (l2 :: L'') ≠ [])]

theorem mem_collapseWs_cases {l : List Char} {y : Char}
    (hy : y ∈ collapseWs l) : y = ' ' ∨ y ∈ l := by
  induction l with
  | nil => cases hy
  | cons c rest ih =>
      cases rest with
      | nil =>
          by_cases hc : isJsWs c
          · rw [collapseWs, if_pos hc] at hy
            rcases List.mem_singleton.mp hy with rfl
            exact Or.inl rfl
          · rw [collapseWs, if_neg hc] at hy
            rcases List.mem_singleton.mp hy with rfl
            exact Or.inr (by simp)
      | cons d r =>
          by_cases hcd : (isJsWs c && isJsWs d) = true
          · rw [collapseWs, if_pos hcd] at hy
            rcases ih hy with h | h
            · exact Or.inl h
            · exact Or.inr (by simp [h])
          · rw [collapseWs, if_neg hcd] at hy
            rcases List.mem_cons.mp hy with rfl | h2
            · by_cases hc : isJsWs c
              · rw [if_pos hc]
                exact Or.inl rfl
              · rw [if_neg hc]
                exact Or.inr (by simp)
            · rcases ih h2 with h | h
              · exact Or.inl h
              · exact Or.inr (by simp [h])

theorem trimChars_collapse_of_trim_nil {p : List Char}
    (h : trimChars p = []) : trimChars (collapseWs p) = [] := by
  apply trimChars_all_ws
  intro y hy
  rcases mem_collapseWs_cases hy with rfl | hmem
  · decide
  · cases hws : isJsWs y
    · exact absurd h (trimChars_ne_nil hmem hws)
    · rfl

theorem exists_non_ws_of_trim_ne_nil {p : List Char} (h : trimChars p ≠ []) :
    ∃ x ∈ p, isJsWs x = false := by
  by_contra hall
  push_neg at hall
  refine h (trimChars_all_ws fun x hx => ?_)
  cases hws : isJsWs x
  · exact absurd hws (hall x hx)
  · rfl

theorem text_ne_nil_of_trim_ne_nil {p : List Char} (h : trimChars p ≠ []) :
    trimChars (collapseWs p) ≠ [] := by
  obtain ⟨x, hx, hws⟩ := exists_non_ws_of_trim_ne_nil h
  exact trimChars_ne_nil (mem_collapseWs hx hws) hws

theorem splitIntoSentencesL_mem_norm {text : List Char}
    (hnorm : fullNorm text = true) (htext : text ≠ []) :
    ∀ s ∈ splitIntoSentencesL text, s ≠ [] ∧ fullNorm s = true := by
  intro s hs
  obtain ⟨hcanon, hdbl, _, _⟩ := fullNorm_components hnorm
  simp only [splitIntoSentencesL] at hs
  by_cases h0 : sentGo [] text = []
  · rw [if_pos h0] at hs
    rcases List.mem_singleton.mp hs with rfl
    exact ⟨htext, hnorm⟩
  · rw [if_neg h0] at hs
    exact sentGo_mem_norm text [] s hcanon hdbl hs

theorem splitIntoSentencesL_ne_nil (text : List Char) :
    splitIntoSentencesL text ≠ [] := by
  simp only [splitIntoSentencesL]
  by_cases h0 : sentGo [] text = []
  · rw [if_pos h0]
    simp
  · rw [if_neg h0]
    exact h0

theorem splitIntoChunksL_mem {p : List Char} :
    ∀ t ∈ splitIntoChunksL p, t ≠ [] ∧ trimChars t = t := by
  intro t ht
  by_cases hp : trimChars p = []
  · rw [splitIntoChunksL, if_pos hp] at ht
    cases ht
  · rw [splitIntoChunksL, if_neg hp] at ht
    have ht2 := List.mem_filter.mp ht
    obtain ⟨htmem, htne⟩ := ht2
    rw [List.mem_flatten] at htmem
    obtain ⟨l, hl, htl⟩ := htmem
    rw [List.mem_map] at hl
    obtain ⟨s, hs, rfl⟩ := hl
    have hnorm := fullNorm_normalize p
    have htext := text_ne_nil_of_trim_ne_nil hp
    obtain ⟨hsne, hsnorm⟩ := splitIntoSentencesL_mem_norm hnorm htext s hs
    exact splitSentenceIntoChunksL_mem hsnorm hsne t htl

theorem splitIntoChunksL_ne_nil {p : List Char} (hp : trimChars p ≠ []) :
    splitIntoChunksL p ≠ [] := by
  have hnorm := fullNorm_normalize p
  have htext := text_ne_nil_of_trim_ne_nil hp
  obtain ⟨s, hs⟩ :=
    List.exists_mem_of_ne_nil _ (splitIntoSentencesL_ne_nil (trimChars (collapseWs p)))
  obtain ⟨hsne, hsnorm⟩ := splitIntoSentencesL_mem_norm hnorm htext s hs
  obtain ⟨t, htmem⟩ :=
    List.exists_mem_of_ne_nil _ (splitSentenceIntoChunksL_ne_nil hsnorm hsne)
  obtain ⟨htne, htfix⟩ := splitSentenceIntoChunksL_mem hsnorm hsne t htmem
  rw [splitIntoChunksL, if_neg hp]
  intro h0
  have htin : t ∈ (((splitIntoSentencesL (trimChars (collapseWs p))).map
      splitSentenceIntoChunksL).flatten).filter (fun c => trimChars c ≠ []) := by
    refine List.mem_filter.mpr ⟨?_, ?_⟩
    · rw [List.mem_flatten]
      exact ⟨splitSentenceIntoChunksL s, List.mem_map_of_mem _ hs, htmem⟩
    · rw [htfix]
      exact decide_eq_true htne
  rw [h0] at htin
  cases htin

/-- The amended round-trip: if the normalised paragraph has no terminator
immediately followed by a quotation mark, the chunks reconstruct it. -/
theorem splitIntoChunksL_roundtrip {p : List Char}
    (hq : noTermThenQuote (trimChars (collapseWs p)) = true) :
    validateChunksL p (splitIntoChunksL p) = true := by
  by_cases hp : trimChars p = []
  · rw [splitIntoChunksL, if_pos hp]
    unfold validateChunksL
    rw [trimChars_collapse_of_trim_nil hp]
    decide
  · have hnorm := fullNorm_normalize p
    have htext := text_ne_nil_of_trim_ne_nil hp
    have hsent := splitIntoSentencesL_mem_norm hnorm htext
    have hfilter :
        (((splitIntoSentencesL (trimChars (collapseWs p))).map
          splitSentenceIntoChunksL).flatten).filter
            (fun c => trimChars c ≠ []) =
        ((splitIntoSentencesL (trimChars (collapseWs p))).map
          splitSentenceIntoChunksL).flatten := by
      rw [List.filter_eq_self]
      intro t ht
      rw [List.mem_flatten] at ht
      obtain ⟨l, hl, htl⟩ := ht
      rw [List.mem_map] at hl
      obtain ⟨s, hs, rfl⟩ := hl
      obtain ⟨hsne, hsnorm⟩ := hsent s hs
      obtain ⟨htne, htfix⟩ := splitSentenceIntoChunksL_mem hsnorm hsne t htl
      rw [htfix]
      exact decide_eq_true htne
    have hjoin : joinSp (((splitIntoSentencesL (trimChars (collapseWs p))).map
        splitSentenceIntoChunksL).flatten) = trimChars (collapseWs p) := by
      rw [joinSp_flatten _ (by
        intro l hl
        rw [List.mem_map] at hl
        obtain ⟨s, hs, rfl⟩ := hl
        obtain ⟨hsne, hsnorm⟩ := hsent s hs
        exact splitSentenceIntoChunksL_ne_nil hsnorm hsne)]
      rw [List.map_map]
      have hmapid : (splitIntoSentencesL (trimChars (collapseWs p))).map
          (joinSp ∘ splitSentenceIntoChunksL) =
          (splitIntoSentencesL (trimChars (collapseWs p))).map id :=
        List.map_congr_left (fun s hs =>
          joinSp_splitSentenceIntoChunksL (hsent s hs).2)
      rw [hmapid, List.map_id]
      exact joinSp_splitIntoSentencesL hnorm hq
    rw [splitIntoChunksL, if_neg hp]
    unfold validateChunksL
    rw [hfilter, hjoin]
    obtain ⟨hcanon, hdbl, hh, hl⟩ := fullNorm_components hnorm
    rw [collapseWs_fixpoint hcanon hdbl, trimChars_eq_self_of_fullNorm hnorm]
    simp

/-! ## Facts about the visual planner loop -/

theorem buildGo_length (chunks : List String) :
    ∀ (g : Option (List (Option RawPlan))) (i : Nat) (last : JsNum)
      (seen : List JsNum),
    (buildGo g i last seen chunks).length = chunks.length := by
  induction chunks with
  | nil => intro g i last seen; rfl
  | cons c rest ih =>
      intro g i last seen
      simp only [buildGo, List.length_cons]
      rw [ih]

theorem buildGo_indices (chunks : List String) :
    ∀ (g : Option (List (Option RawPlan))) (i : Nat) (last : JsNum)
      (seen : List JsNum),
    (buildGo g i last seen chunks).map (fun pl => pl.index) =
      List.range' i chunks.length := by
  induction chunks with
  | nil => intro g i last seen; rfl
  | cons c rest ih =>
      intro g i last seen
      simp only [buildGo, List.map_cons, List.length_cons, List.range'_succ]
      rw [ih]
      rfl

theorem mkPlan_zero (gp : Option RawPlan) (c : String) (last : JsNum)
    (seen : List JsNum) :
    (mkPlan gp 0 c last seen).isNewScene = true ∧
    (mkPlan gp 0 c last seen).sceneId = JsNum.fin 1 := by
  unfold mkPlan
  simp

theorem mkPlan_index (gp : Option RawPlan) (i : Nat) (c : String)
    (last : JsNum) (seen : List JsNum) :
    (mkPlan gp i c last seen).index = i := rfl

theorem mkPlan_not_new_sceneId {gp : Option RawPlan} {i : Nat} {c : String}
    {last : JsNum} {seen : List JsNum}
    (h : (mkPlan gp i c last seen).isNewScene = false) :
    (mkPlan gp i c last seen).sceneId = last := by
  by_cases hi : i = 0
  · subst hi
    rw [(mkPlan_zero gp c last seen).1] at h
    cases h
  · unfold mkPlan at h ⊢
    simp only [if_neg hi] at h ⊢
    split_ifs <;> simp_all

theorem mkPlan_new_of_changed {gp : Option RawPlan} {i : Nat} {c : String}
    {last : JsNum} {seen : List JsNum}
    (hne : (mkPlan gp i c last seen).sceneId ≠ last) :
    (mkPlan gp i c last seen).isNewScene = true := by
  cases hb : (mkPlan gp i c last seen).isNewScene
  · exact absurd (mkPlan_not_new_sceneId hb) hne
  · rfl

theorem mkPlan_new_collision {gp : Option RawPlan} {i : Nat} {c : String}
    {last : JsNum} {seen : List JsNum} (hi : 0 < i)
    (hnew : (mkPlan gp i c last seen).isNewScene = true)
    (heq : (mkPlan gp i c last seen).sceneId = last) :
    jsAdd1 last = last := by
  have hi0 : ¬ i = 0 := Nat.pos_iff_ne_zero.mp hi
  unfold mkPlan at hnew heq
  simp only [if_neg hi0] at hnew heq
  by_cases hr : (resolveFields gp i last seen).sceneId = last
  · simpa [hnew, hi, hr] using heq
  · simp [hnew, hi, hr] at heq

theorem mkPlan_queries (gp : Option RawPlan) (i : Nat) (c : String)
    (last : JsNum) (seen : List JsNum) :
    ((mkPlan gp i c last seen).isNewScene = false →
      (mkPlan gp i c last seen).visualQueries = []) ∧
    ((mkPlan gp i c last seen).isNewScene = true →
      (mkPlan gp i c last seen).displayStyle = "visual" →
      (mkPlan gp i c last seen).visualQueries ≠ []) := by
  unfold mkPlan
  constructor
  · intro h
    simp only at h ⊢
    rw [if_pos h]
  · intro h hd
    simp only at h hd ⊢
    rw [if_neg (by rw [h]; simp)]
    by_cases hq : (resolveFields gp i last seen).visualQueries = []
    · rw [if_pos ⟨h, hd, hq⟩]
      simp
    · rw [if_neg (by simp [hq])]
      exact hq

theorem buildGo_mem_queries (chunks : List String) :
    ∀ (g : Option (List (Option RawPlan))) (i : Nat) (last : JsNum)
      (seen : List JsNum) (pl : ChunkPlan),
    pl ∈ buildGo g i last seen chunks →
    (pl.isNewScene = false → pl.visualQueries = []) ∧
    (pl.isNewScene = true → pl.displayStyle = "visual" →
      pl.visualQueries ≠ []) := by
  induction chunks with
  | nil => intro g i last seen pl h; cases h
  | cons c rest ih =>
      intro g i last seen pl h
      simp only [buildGo] at h
      rcases List.mem_cons.mp h with rfl | h2
      · exact mkPlan_queries _ _ _ _ _
      · exact ih g (i + 1) _ _ pl h2

theorem mkPlan_none_fields (i : Nat) (c : String) (last : JsNum)
    (seen : List JsNum) :
    (mkPlan none i c last seen).sceneId =
      (if i = 0 then JsNum.fin 1 else last) ∧
    (mkPlan none i c last seen).visualChangeConfidence =
      (if i = 0 then 1 else (2 : Rat) / 10) := by
  by_cases hi : i = 0
  · subst hi
    unfold mkPlan resolveFields
    simp
  · unfold mkPlan resolveFields
    simp only [if_neg hi]
    constructor
    · rw [if_neg (by simp), if_neg (by simp)]
    · trivial

theorem buildGo_none_all (chunks : List String) :
    ∀ (i : Nat) (seen : List JsNum), 0 < i →
    ∀ pl ∈ buildGo none i (JsNum.fin 1) seen chunks,
      pl.sceneId = JsNum.fin 1 ∧ pl.visualChangeConfidence = (2 : Rat) / 10 ∧
        0 < pl.index := by
  induction chunks with
  | nil => intro i seen hi pl h; cases h
  | cons c rest ih =>
      intro i seen hi pl h
      have hi0 : ¬ i = 0 := Nat.pos_iff_ne_zero.mp hi
      have hfields := mkPlan_none_fields i c (JsNum.fin 1) seen
      rw [if_neg hi0] at hfields
      rw [if_neg hi0] at hfields
      simp only [buildGo, geminiPlanAt] at h
      rcases List.mem_cons.mp h with rfl | h2
      · exact ⟨hfields.1, hfields.2, hi⟩
      · rw [hfields.1] at h2
        exact ih (i + 1) _ (by omega) pl h2

theorem buildChunkPlans_none_all (chunks : List String) :
    ∀ pl ∈ buildChunkPlans none chunks,
      pl.sceneId = JsNum.fin 1 ∧ pl.visualChangeConfidence =
        (if pl.index = 0 then 1 else (2 : Rat) / 10) := by
  intro pl h
  cases chunks with
  | nil => cases h
  | cons c rest =>
      simp only [buildChunkPlans, buildGo, geminiPlanAt] at h
      have hfields := mkPlan_none_fields 0 c (JsNum.fin 0) []
      rcases List.mem_cons.mp h with rfl | h2
      · refine ⟨by simpa using hfields.1, ?_⟩
        rw [mkPlan_index, if_pos rfl]
        simpa using hfields.2
      · rw [show (mkPlan none 0 c (JsNum.fin 0) []).sceneId = JsNum.fin 1
          from by simpa using hfields.1] at h2
        obtain ⟨h1, h2', h3⟩ := buildGo_none_all rest 1 _ (by omega) pl h2
        refine ⟨h1, ?_⟩
        rw [if_neg (by omega)]
        exact h2'

theorem buildGo_chain (chunks : List String) :
    ∀ (g : Option (List (Option RawPlan))) (i : Nat) (last : JsNum)
      (seen : List JsNum) (j : Nat),
    j + 1 < (buildGo g i last seen chunks).length →
    (((buildGo g i last seen chunks).getD (j + 1) dummyPlan).sceneId ≠
        ((buildGo g i last seen chunks).getD j dummyPlan).sceneId →
      ((buildGo g i last seen chunks).getD (j + 1) dummyPlan).isNewScene =
        true) ∧
    (((buildGo g i last seen chunks).getD (j + 1) dummyPlan).isNewScene =
        true →
      ((buildGo g i last seen chunks).getD (j + 1) dummyPlan).sceneId =
        ((buildGo g i last seen chunks).getD j dummyPlan).sceneId →
      jsAdd1 (((buildGo g i last seen chunks).getD j dummyPlan).sceneId) =
        ((buildGo g i last seen chunks).getD j dummyPlan).sceneId) := by
  induction chunks with
  | nil => intro g i last seen j h; simp [buildGo] at h
  | cons c rest ih =>
      intro g i last seen j h
      rw [buildGo_length] at h
      simp only [buildGo]
      cases j with
      | zero =>
          cases rest with
          | nil => simp at h
          | cons c2 rest2 =>
              simp only [List.getD_cons_succ, List.getD_cons_zero, buildGo,
                List.getD_cons_zero]
              exact ⟨fun hne => mkPlan_new_of_changed hne,
                fun hnew heq => mkPlan_new_collision (by omega) hnew heq⟩
      | succ j' =>
          simp only [List.getD_cons_succ]
          refine ih g (i + 1) _ _ j' ?_
          rw [buildGo_length]
          simp only [List.length_cons] at h
          omega

theorem buildGo_getD_shape (chunks : List String) :
    ∀ (g : Option (List (Option RawPlan))) (i : Nat) (last : JsNum)
      (seen : List JsNum) (j : Nat), j < chunks.length →
    ∃ last2 seen2, (buildGo g i last seen chunks).getD j dummyPlan =
      mkPlan (geminiPlanAt g (i + j)) (i + j) (chunks.getD j "") last2 seen2 := by
  induction chunks with
  | nil => intro g i last seen j h; simp at h
  | cons c rest ih =>
      intro g i last seen j h
      cases j with
      | zero =>
          refine ⟨last, seen, ?_⟩
          simp [buildGo]
      | succ j' =>
          simp only [buildGo, List.getD_cons_succ]
          obtain ⟨l2, s2, hshape⟩ := ih g (i + 1) _ _ j'
            (by simpa using Nat.lt_of_succ_lt_succ h)
          refine ⟨l2, s2, ?_⟩
          have harith : i + (j' + 1) = i + 1 + j' := by omega
          rw [hshape, harith]

/-! ## Inversion of `planVisualsForParagraph` -/

theorem planVisuals_ok_inv {p : String} {o : OracleOutcome}
    {plans : List ChunkPlan}
    (h : planVisualsForParagraph p o = Except.ok plans) :
    plans = buildChunkPlans (geminiPlansOf o)
        (splitIntoChunks (normalizeText p)) ∧
      jsTrim p ≠ "" ∧ splitIntoChunks (normalizeText p) ≠ [] := by
  unfold planVisualsForParagraph at h
  by_cases h1 : jsTrim p = ""
  · rw [if_pos h1] at h
    cases h
  · rw [if_neg h1] at h
    by_cases h2 : splitIntoChunks (normalizeText p) = []
    · rw [if_pos h2] at h
      cases h
    · rw [if_neg h2] at h
      exact ⟨(Except.ok.injEq _ _).mp h.symm, h1, h2⟩

theorem planVisuals_error_iff (p : String) (o : OracleOutcome) :
    (∃ msg, planVisualsForParagraph p o = Except.error msg) ↔
      (jsTrim p = "" ∨ splitIntoChunks (normalizeText p) = []) := by
  unfold planVisualsForParagraph
  by_cases h1 : jsTrim p = ""
  · rw [if_pos h1]
    exact ⟨fun _ => Or.inl h1, fun _ => ⟨_, rfl⟩⟩
  · rw [if_neg h1]
    by_cases h2 : splitIntoChunks (normalizeText p) = []
    · rw [if_pos h2]
      exact ⟨fun _ => Or.inr h2, fun _ => ⟨_, rfl⟩⟩
    · rw [if_neg h2]
      constructor
      · intro ⟨msg, hmsg⟩
        cases hmsg
      · intro hor
        rcases hor with h | h
        · exact absurd h h1
        · exact absurd h h2

/-! ## Claim theorems -/

/-- C1 (counterexample): the round-trip claim fails as stated.  On the
paragraph `He said "stop." Then left.` the sentence splitter cuts between
the period and the closing quote, so rejoining the chunks with single
spaces yields `He said "stop. " Then left.` and `validateChunks` returns
`false`. -/
theorem c1_roundtrip_counterexample :
    validateChunks "He said \"stop.\" Then left."
      (splitIntoChunks "He said \"stop.\" Then left.") = false := by decide

/-- C1 (amended): for every paragraph in which no sentence terminator
(`.`, `!`, `?`) is immediately followed by a quotation mark (`"` or `'`)
in the whitespace-normalised text, joining the chunks returned by
`splitIntoChunks` with single spaces, collapsing whitespace and trimming
yields exactly the whitespace-normalised paragraph:
`validateChunks p (splitIntoChunks p) = true`. -/
theorem c1_roundtrip_amended (p : String)
    (hq : noTermThenQuote (trimChars (collapseWs p.data)) = true) :
    validateChunks p (splitIntoChunks p) = true := by
  unfold validateChunks splitIntoChunks
  rw [List.map_map]
  rw [show (List.map (String.data ∘ String.mk) (splitIntoChunksL p.data)) =
    List.map id (splitIntoChunksL p.data) from rfl, List.map_id]
  exact splitIntoChunksL_roundtrip hq

/-- C1 (witness): the amended round trip at a concrete quote-free
paragraph. -/
theorem c1_roundtrip_amended_witness :
    noTermThenQuote (trimChars (collapseWs ("Aa bb. Cc dd.".data))) = true ∧
    validateChunks "Aa bb. Cc dd." (splitIntoChunks "Aa bb. Cc dd.") = true :=
  ⟨by decide, c1_roundtrip_amended "Aa bb. Cc dd." (by decide)⟩

/-- C2: for every paragraph and every oracle outcome, a successful
`planVisualsForParagraph` call returns exactly one `ChunkPlan` per chunk,
with index fields `0, 1, ..., N-1` in order. -/
theorem c2_completeness (p : String) (o : OracleOutcome)
    (plans : List ChunkPlan)
    (h : planVisualsForParagraph p o = Except.ok plans) :
    plans.map (fun pl => pl.index) =
      List.range (splitIntoChunks (normalizeText p)).length := by
  obtain ⟨rfl, -, -⟩ := planVisuals_ok_inv h
  rw [List.range_eq_range']
  exact buildGo_indices _ _ 0 (JsNum.fin 0) []

/-- C2 (witness): the completeness property at a concrete two-chunk
paragraph with a failing oracle. -/
theorem c2_completeness_witness :
    planVisualsForParagraph "Aa bb. Cc dd." OracleOutcome.failure =
      Except.ok (plansOrEmpty "Aa bb. Cc dd." OracleOutcome.failure) ∧
    (plansOrEmpty "Aa bb. Cc dd." OracleOutcome.failure).map
        (fun pl => pl.index) =
      List.range (splitIntoChunks (normalizeText "Aa bb. Cc dd.")).length :=
  ⟨rfl, c2_completeness "Aa bb. Cc dd." OracleOutcome.failure _ rfl⟩

/-- C3 (counterexample): the claimed equivalence fails under IEEE double
arithmetic.  `9007199254740992 = 2^53` is a valid JSON number passing the
`typeof` check, and `2^53 + 1` rounds back to `2^53` in binary64, so on a
three-chunk paragraph whose oracle supplies `sceneId = 2^53, isNewScene =
true` for chunks 1 and 2, the collision repair's `lastSceneId + 1` for
chunk 2 leaves the sceneId unchanged while `isNewScene` stays `true`:
`isNewScene` is true yet the sceneId equals the previous plan's. -/
theorem c3_counterexample :
    ((plansOrEmpty "Aa bb. Cc dd. Ee ff." (OracleOutcome.array
        [none,
         some { sceneId := some (JsNum.fin 9007199254740992),
                isNewScene := some true },
         some { sceneId := some (JsNum.fin 9007199254740992),
                isNewScene := some true }])).getD 2
      dummyPlan).isNewScene = true ∧
    ((plansOrEmpty "Aa bb. Cc dd. Ee ff." (OracleOutcome.array
        [none,
         some { sceneId := some (JsNum.fin 9007199254740992),
                isNewScene := some true },
         some { sceneId := some (JsNum.fin 9007199254740992),
                isNewScene := some true }])).getD 2
      dummyPlan).sceneId =
    ((plansOrEmpty "Aa bb. Cc dd. Ee ff." (OracleOutcome.array
        [none,
         some { sceneId := some (JsNum.fin 9007199254740992),
                isNewScene := some true },
         some { sceneId := some (JsNum.fin 9007199254740992),
                isNewScene := some true }])).getD 1
      dummyPlan).sceneId := by decide

/-- C3 (amended): for every successful plan, plan 0 has `isNewScene = true`
and `sceneId = 1`; for every later index, `isNewScene` is true whenever the
`sceneId` differs from the previous plan's, and an `isNewScene = true` plan
whose `sceneId` equals the previous plan's can arise only when binary64
addition saturates on that sceneId (`fl(s + 1) = s`, which requires
`|s| ≥ 2^53` or an infinite `s`). -/
theorem c3_amended (p : String) (o : OracleOutcome)
    (plans : List ChunkPlan)
    (h : planVisualsForParagraph p o = Except.ok plans) :
    (∀ pl0, plans.head? = some pl0 →
      pl0.isNewScene = true ∧ pl0.sceneId = JsNum.fin 1) ∧
    (∀ i, i + 1 < plans.length →
      ((plans.getD (i + 1) dummyPlan).sceneId ≠
          (plans.getD i dummyPlan).sceneId →
        (plans.getD (i + 1) dummyPlan).isNewScene = true) ∧
      ((plans.getD (i + 1) dummyPlan).isNewScene = true →
        (plans.getD (i + 1) dummyPlan).sceneId =
          (plans.getD i dummyPlan).sceneId →
        jsAdd1 ((plans.getD i dummyPlan).sceneId) =
          (plans.getD i dummyPlan).sceneId)) := by
  obtain ⟨rfl, -, -⟩ := planVisuals_ok_inv h
  constructor
  · intro pl0 h0
    cases hc : splitIntoChunks (normalizeText p) with
    | nil =>
        rw [hc] at h0
        cases h0
    | cons c rest =>
        rw [hc] at h0
        simp only [buildChunkPlans, buildGo, List.head?_cons,
          Option.some_inj] at h0
        subst h0
        exact mkPlan_zero _ _ _ _
  · intro i hi
    exact buildGo_chain _ _ 0 (JsNum.fin 0) [] i hi

/-- C3 (witness): the amended invariant at a concrete two-chunk paragraph
with a failing oracle. -/
theorem c3_amended_witness :
    planVisualsForParagraph "Aa bb. Cc dd." OracleOutcome.failure =
      Except.ok (plansOrEmpty "Aa bb. Cc dd." OracleOutcome.failure) ∧
    ((plansOrEmpty "Aa bb. Cc dd." OracleOutcome.failure).getD 0
        dummyPlan).isNewScene = true ∧
    ((plansOrEmpty "Aa bb. Cc dd." OracleOutcome.failure).getD 0
        dummyPlan).sceneId = JsNum.fin 1 ∧
    (((plansOrEmpty "Aa bb. Cc dd." OracleOutcome.failure).getD 1
          dummyPlan).sceneId ≠
        ((plansOrEmpty "Aa bb. Cc dd." OracleOutcome.failure).getD 0
          dummyPlan).sceneId →
      ((plansOrEmpty "Aa bb. Cc dd." OracleOutcome.failure).getD 1
        dummyPlan).isNewScene = true) := by
  refine ⟨rfl, ?_, ?_, ?_⟩
  · exact ((c3_amended "Aa bb. Cc dd." OracleOutcome.failure _ rfl).1
      ((plansOrEmpty "Aa bb. Cc dd." OracleOutcome.failure).getD 0 dummyPlan)
      (by decide)).1
  · exact ((c3_amended "Aa bb. Cc dd." OracleOutcome.failure _ rfl).1
      ((plansOrEmpty "Aa bb. Cc dd." OracleOutcome.failure).getD 0 dummyPlan)
      (by decide)).2
  · exact ((c3_amended "Aa bb. Cc dd." OracleOutcome.failure _
      rfl).2 0 (by decide)).1

/-- C4 (counterexample): the positivity/monotonicity claim fails as stated:
an oracle array supplying a numeric `sceneId = -5` with `isNewScene = true`
for chunk 1 passes validation unchanged, producing a non-positive,
decreasing sceneId sequence. -/
theorem c4_counterexample :
    ((plansOrEmpty "Aa bb. Cc dd." (OracleOutcome.array
        [none, some { sceneId := some (JsNum.fin (-5)),
                      isNewScene := some true }])).getD
      1 dummyPlan).sceneId = JsNum.fin (-5) ∧
    jsLt (JsNum.fin 0)
      (((plansOrEmpty "Aa bb. Cc dd." (OracleOutcome.array
        [none, some { sceneId := some (JsNum.fin (-5)),
                      isNewScene := some true }])).getD
      1 dummyPlan).sceneId) = false ∧
    jsLt
      (((plansOrEmpty "Aa bb. Cc dd." (OracleOutcome.array
        [none, some { sceneId := some (JsNum.fin (-5)),
                      isNewScene := some true }])).getD
      1 dummyPlan).sceneId)
      (((plansOrEmpty "Aa bb. Cc dd." (OracleOutcome.array
        [none, some { sceneId := some (JsNum.fin (-5)),
                      isNewScene := some true }])).getD
      0 dummyPlan).sceneId) = true := by decide

/-- C4 (amended): regardless of oracle behaviour, a plan's sceneId changes
only at indices where `isNewScene` is true (a not-new plan repeats the
previous sceneId); and when the oracle response is absent or discarded
(`failure`), every sceneId equals 1, hence the sequence is positive and
monotonically non-decreasing.  An oracle-supplied numeric sceneId is used
as-is, so positivity and monotonicity do not hold in general. -/
theorem c4_amended (p : String) (o : OracleOutcome) (plans : List ChunkPlan)
    (h : planVisualsForParagraph p o = Except.ok plans) :
    (∀ i, i + 1 < plans.length →
      (plans.getD (i + 1) dummyPlan).isNewScene = false →
      (plans.getD (i + 1) dummyPlan).sceneId =
        (plans.getD i dummyPlan).sceneId) ∧
    (o = OracleOutcome.failure →
      ∀ pl ∈ plans,
        pl.sceneId = JsNum.fin 1 ∧ jsLt (JsNum.fin 0) pl.sceneId = true) := by
  obtain ⟨rfl, -, -⟩ := planVisuals_ok_inv h
  constructor
  · intro i hi hnew
    by_contra hne
    simp only [buildChunkPlans] at hi hnew hne
    have hchain := buildGo_chain _ (geminiPlansOf o) 0 (JsNum.fin 0) [] i hi
    rw [hchain.1 hne] at hnew
    cases hnew
  · intro ho pl hpl
    subst ho
    have := buildChunkPlans_none_all _ pl hpl
    exact ⟨this.1, by rw [this.1]; decide⟩

/-- C4 (witness): the amended claim at a concrete paragraph with a failing
oracle. -/
theorem c4_amended_witness :
    planVisualsForParagraph "Aa bb. Cc dd." OracleOutcome.failure =
      Except.ok (plansOrEmpty "Aa bb. Cc dd." OracleOutcome.failure) ∧
    ((plansOrEmpty "Aa bb. Cc dd." OracleOutcome.failure).getD 0
        dummyPlan).sceneId = JsNum.fin 1 ∧
    jsLt (JsNum.fin 0)
      (((plansOrEmpty "Aa bb. Cc dd." OracleOutcome.failure).getD 0
        dummyPlan).sceneId) = true := by
  refine ⟨rfl, ?_, ?_⟩
  · exact ((c4_amended "Aa bb. Cc dd." OracleOutcome.failure _ rfl).2 rfl
      _ (by decide)).1
  · exact ((c4_amended "Aa bb. Cc dd." OracleOutcome.failure _ rfl).2 rfl
      _ (by decide)).2

/-- C5: for every plan in every successful output, a not-new-scene plan has
no visual queries, and a new-scene plan with `displayStyle = "visual"` has
at least one query (synthesised from the chunk text when the oracle
supplied none). -/
theorem c5_query_gating (p : String) (o : OracleOutcome)
    (plans : List ChunkPlan) (pl : ChunkPlan)
    (h : planVisualsForParagraph p o = Except.ok plans) (hpl : pl ∈ plans) :
    (pl.isNewScene = false → pl.visualQueries = []) ∧
    (pl.isNewScene = true → pl.displayStyle = "visual" →
      pl.visualQueries ≠ []) := by
  obtain ⟨rfl, -, -⟩ := planVisuals_ok_inv h
  exact buildGo_mem_queries _ _ 0 (JsNum.fin 0) [] pl hpl

/-- C5 (witness): query gating at a concrete paragraph, for both a
new-scene chunk and a continuing chunk. -/
theorem c5_query_gating_witness :
    planVisualsForParagraph "Aa bb. Cc dd." OracleOutcome.failure =
      Except.ok (plansOrEmpty "Aa bb. Cc dd." OracleOutcome.failure) ∧
    ((plansOrEmpty "Aa bb. Cc dd." OracleOutcome.failure).getD 1 dummyPlan)
      ∈ plansOrEmpty "Aa bb. Cc dd." OracleOutcome.failure ∧
    ((plansOrEmpty "Aa bb. Cc dd." OracleOutcome.failure).getD 1
        dummyPlan).isNewScene = false ∧
    ((plansOrEmpty "Aa bb. Cc dd." OracleOutcome.failure).getD 1
        dummyPlan).visualQueries = [] := by
  refine ⟨rfl, by decide, by decide, ?_⟩
  exact (c5_query_gating "Aa bb. Cc dd." OracleOutcome.failure _ _
    rfl (by decide)).1 (by decide)

/-- C6: `planVisualsForParagraph` returns an error exactly when the
paragraph is empty or whitespace-only, or chunking produces zero chunks;
an oracle failure of any kind never produces an error. -/
theorem c6_error_semantics (p : String) (o : OracleOutcome) :
    (∃ msg, planVisualsForParagraph p o = Except.error msg) ↔
      (jsTrim p = "" ∨ splitIntoChunks (normalizeText p) = []) :=
  planVisuals_error_iff p o

/-- C7 (counterexample): a well-formed oracle array of the wrong length is
not discarded: on a two-chunk paragraph with a one-element array carrying
`displayStyle = "text_only"`, chunk 0's plan differs from the oracle-failed
run (which gives `displayStyle = "visual"`). -/
theorem c7_counterexample :
    (splitIntoChunks (normalizeText "Aa bb. Cc dd.")).length = 2 ∧
    ((plansOrEmpty "Aa bb. Cc dd." (OracleOutcome.array
        [some { displayStyle := some "text_only" }])).getD 0
      dummyPlan).displayStyle = "text_only" ∧
    ((plansOrEmpty "Aa bb. Cc dd." OracleOutcome.failure).getD 0
      dummyPlan).displayStyle = "visual" ∧
    (plansOrEmpty "Aa bb. Cc dd." (OracleOutcome.array
        [some { displayStyle := some "text_only" }])).getD 0 dummyPlan ≠
    (plansOrEmpty "Aa bb. Cc dd." OracleOutcome.failure).getD 0 dummyPlan := by
  decide

/-- C7 (amended): a wrong-length oracle array is kept, not discarded:
chunks with an in-range element resolve their fields from that element
(see the counterexample), while every chunk at an index past the array's
length is built by the same defaults branch as a failed oracle, threaded
through the run's own scene state. -/
theorem c7_amended (p : String) (raw : List (Option RawPlan))
    (plans : List ChunkPlan)
    (h : planVisualsForParagraph p (OracleOutcome.array raw) = Except.ok plans)
    (j : Nat) (hj : raw.length ≤ j) (hjlen : j < plans.length) :
    ∃ last2 seen2, plans.getD j dummyPlan =
      mkPlan none j ((splitIntoChunks (normalizeText p)).getD j "")
        last2 seen2 := by
  obtain ⟨rfl, -, -⟩ := planVisuals_ok_inv h
  simp only [buildChunkPlans] at hjlen ⊢
  rw [buildGo_length] at hjlen
  obtain ⟨l2, s2, hshape⟩ :=
    buildGo_getD_shape (splitIntoChunks (normalizeText p))
      (geminiPlansOf (OracleOutcome.array raw)) 0 (JsNum.fin 0) [] j hjlen
  refine ⟨l2, s2, ?_⟩
  rw [hshape]
  have hnone : geminiPlanAt (geminiPlansOf (OracleOutcome.array raw))
      (0 + j) = none := by
    simp only [geminiPlansOf, geminiPlanAt]
    exact List.getD_eq_default raw none (by omega)
  rw [hnone]
  congr 1
  omega

/-- C7 (witness): the amended claim at a concrete two-chunk paragraph with
a one-element oracle array: chunk 1 is past the array and gets the
defaults branch. -/
theorem c7_amended_witness :
    planVisualsForParagraph "Aa bb. Cc dd." (OracleOutcome.array
        [some { displayStyle := some "text_only" }]) =
      Except.ok (plansOrEmpty "Aa bb. Cc dd." (OracleOutcome.array
        [some { displayStyle := some "text_only" }])) ∧
    ([some ({ displayStyle := some "text_only" } : RawPlan)].length ≤ 1) ∧
    (1 < (plansOrEmpty "Aa bb. Cc dd." (OracleOutcome.array
        [some { displayStyle := some "text_only" }])).length) ∧
    (∃ last2 seen2,
      (plansOrEmpty "Aa bb. Cc dd." (OracleOutcome.array
          [some { displayStyle := some "text_only" }])).getD 1 dummyPlan =
        mkPlan none 1
          ((splitIntoChunks (normalizeText "Aa bb. Cc dd.")).getD 1 "")
          last2 seen2) :=
  ⟨rfl, by decide, by decide,
    c7_amended "Aa bb. Cc dd." _ _ rfl 1 (by decide) (by decide)⟩

/-- C8 (counterexample): a terminator followed by a quote ends the sentence
even when the character after the quote is a space followed by a lowercase
letter: the claim predicts one sentence here, the code produces two. -/
theorem c8_counterexample :
    splitIntoSentences "He said \"hi.\" then left" =
      ["He said \"hi.", "\" then left"] := by decide

/-- C8 (amended): in the sentence splitter, a terminator immediately
followed by a quotation mark always ends the sentence there (provided the
preceding word does not match the abbreviation list), regardless of the
character following the quote. -/
theorem c8_amended (acc : List Char) (c q : Char) (rest : List Char)
    (hterm : isTerminator c = true) (hquote : isQuoteChar q = true)
    (habb : isAbbrevLastWord (acc ++ [c]) = false) :
    sentGo acc (c :: q :: rest) =
      trimChars (acc ++ [c]) :: sentGo [] (q :: rest) :=
  sentGo_terminator_quote acc rest hterm hquote habb

/-- C8 (witness): the amended claim at a concrete scan state: the period
after `hi` followed by a quote cuts the sentence even though lowercase
text follows. -/
theorem c8_amended_witness :
    isTerminator '.' = true ∧ isQuoteChar '"' = true ∧
    isAbbrevLastWord ("He said \"hi".data ++ ['.']) = false ∧
    sentGo "He said \"hi".data ('.' :: '"' :: " then left".data) =
      trimChars ("He said \"hi".data ++ ['.']) ::
        sentGo [] ('"' :: " then left".data) :=
  ⟨by decide, by decide, by decide,
    c8_amended "He said \"hi".data '.' '"' " then left".data
      (by decide) (by decide) (by decide)⟩

/-- C9 (counterexample): with a failing oracle, chunk 0's
`visualChangeConfidence` is `1.0`, not `0.8`: the smart-defaults branch
uses `i === 0 ? 1.0 : 0.2`, not the `0.8`/`0.2` rule. -/
theorem c9_counterexample :
    ((plansOrEmpty "Hello world" OracleOutcome.failure).getD 0
        dummyPlan).isNewScene = true ∧
    ((plansOrEmpty "Hello world" OracleOutcome.failure).getD 0
        dummyPlan).visualChangeConfidence ≠ (8 : Rat) / 10 ∧
    ((plansOrEmpty "Hello world" OracleOutcome.failure).getD 0
        dummyPlan).visualChangeConfidence = 1 := by decide

/-- C9 (amended): the `0.8` if new-scene / `0.2` otherwise default applies
only when the oracle supplied an object for the chunk whose
`visualChangeConfidence` is missing or out of `[0,1]` (with `isNewScene`
taken before the chunk-0 forcing and repairs); when the oracle supplied no
object for the chunk — absent, failed, or a short array — the confidence
defaults to `1.0` for chunk 0 and `0.2` otherwise. -/
theorem c9_amended :
    (∀ (g : RawPlan) (i : Nat) (c : String) (last : JsNum)
        (seen : List JsNum),
      (g.visualChangeConfidence = none ∨
        ∃ v, g.visualChangeConfidence = some v ∧ ¬ (0 ≤ v ∧ v ≤ 1)) →
      (mkPlan (some g) i c last seen).visualChangeConfidence =
        (if (resolveFields (some g) i last seen).isNewScene = true
          then (8 : Rat) / 10 else (2 : Rat) / 10)) ∧
    (∀ (p : String) (plans : List ChunkPlan),
      planVisualsForParagraph p OracleOutcome.failure = Except.ok plans →
      ∀ pl ∈ plans, pl.visualChangeConfidence =
        (if pl.index = 0 then 1 else (2 : Rat) / 10)) := by
  constructor
  · intro g i c last seen hbad
    show (resolveFields (some g) i last seen).visualChangeConfidence = _
    simp only [resolveFields]
    rcases hbad with hnone | ⟨v, hv, hout⟩
    · rw [hnone]
    · simp only [hv]
      rw [if_neg hout]
  · intro p plans h pl hpl
    obtain ⟨rfl, -, -⟩ := planVisuals_ok_inv h
    exact (buildChunkPlans_none_all _ pl hpl).2

/-- C9 (witness): the amended claim at a concrete out-of-range confidence
and at a concrete failing-oracle call. -/
theorem c9_amended_witness :
    (mkPlan (some { visualChangeConfidence := some 5 }) 1 "w" (JsNum.fin 1)
        [JsNum.fin 1]).visualChangeConfidence =
      (if (resolveFields (some { visualChangeConfidence := some 5 }) 1
          (JsNum.fin 1)
          [JsNum.fin 1]).isNewScene = true
        then (8 : Rat) / 10 else (2 : Rat) / 10) ∧
    planVisualsForParagraph "Hello world" OracleOutcome.failure =
      Except.ok (plansOrEmpty "Hello world" OracleOutcome.failure) ∧
    ((plansOrEmpty "Hello world" OracleOutcome.failure).getD 0
        dummyPlan).visualChangeConfidence =
      (if ((plansOrEmpty "Hello world" OracleOutcome.failure).getD 0
          dummyPlan).index = 0 then 1 else (2 : Rat) / 10) :=
  ⟨c9_amended.1 { visualChangeConfidence := some 5 } 1 "w" (JsNum.fin 1)
      [JsNum.fin 1] (Or.inr ⟨5, rfl, by norm_num⟩),
    rfl,
    c9_amended.2 "Hello world" _ rfl _ (by decide)⟩

/-- C10: every paragraph whose trimmed form is non-empty yields a non-empty
chunk list, `splitIntoSentences` always yields at least one sentence, and
the only error `planVisualsForParagraph` can raise is the empty-paragraph
error — the zero-chunks branch is unreachable. -/
theorem c10_nonempty (p : String) :
    (jsTrim p ≠ "" → splitIntoChunks p ≠ []) ∧
    (∀ text : String, splitIntoSentences text ≠ []) ∧
    (∀ (o : OracleOutcome) (msg : String),
      planVisualsForParagraph p o = Except.error msg →
      jsTrim p = "" ∧ msg = "Paragraph cannot be empty") := by
  refine ⟨?_, ?_, ?_⟩
  · intro hp
    have hp2 : trimChars p.data ≠ [] := by
      intro h0
      apply hp
      show String.mk (trimChars p.data) = ""
      rw [h0]
    unfold splitIntoChunks
    rw [Ne, List.map_eq_nil_iff]
    exact splitIntoChunksL_ne_nil hp2
  · intro text
    unfold splitIntoSentences
    rw [Ne, List.map_eq_nil_iff]
    exact splitIntoSentencesL_ne_nil text.data
  · intro o msg h
    unfold planVisualsForParagraph at h
    by_cases h1 : jsTrim p = ""
    · rw [if_pos h1] at h
      exact ⟨h1, ((Except.error.injEq _ _).mp h).symm⟩
    · rw [if_neg h1] at h
      have hp2 : trimChars p.data ≠ [] := by
        intro h0
        apply h1
        show String.mk (trimChars p.data) = ""
        rw [h0]
      have hchunks : splitIntoChunks (normalizeText p) ≠ [] := by
        unfold splitIntoChunks normalizeText
        rw [Ne, List.map_eq_nil_iff]
        apply splitIntoChunksL_ne_nil
        show trimChars (String.mk (trimChars (collapseWs p.data))).data ≠ []
        rw [show (String.mk (trimChars (collapseWs p.data))).data =
          trimChars (collapseWs p.data) from rfl, trimChars_idem]
        exact text_ne_nil_of_trim_ne_nil hp2
      rw [if_neg hchunks] at h
      cases h

/-- C10 (witness): the non-emptiness claim at a concrete paragraph. -/
theorem c10_nonempty_witness :
    jsTrim "Hello world" ≠ "" ∧ splitIntoChunks "Hello world" ≠ [] :=
  ⟨by decide, (c10_nonempty "Hello world").1 (by decide)⟩

end Consomnius
